import Mathlib

/-!
Shallow embedding of the thread_safe_lru_cache repository.

The hash index (std::unordered_map, boost::intrusive::unordered_set) is
modelled as an association list in which a fresh entry is consed at the
front; lookup takes the first entry with a matching key, mirroring the
uniqueness of keys in the C++ hash tables.  The recency list
(std::list, boost::intrusive::list) is modelled as a Lean list.
Timestamps (std::chrono::steady_clock::time_point) are modelled as
natural numbers of milliseconds; each public TTL operation takes the
current time as an explicit argument.
-/

set_option autoImplicit false

open scoped List

namespace CacheSpec

variable {K V : Type} [DecidableEq K]

/-- Lookup in the association-list model of a hash table: first entry
whose key matches, as the C++ `find` on a map with unique keys. -/
def mapFind? (k : K) (l : List (K × V)) : Option V :=
  (l.find? (fun p => decide (p.1 = k))).map Prod.snd

/-- Removal of the entry for `k` from the association-list model of a
hash table (the C++ `erase(key)` / `erase(iterator)` on a map).  Only
the first matching entry is removed, as keys are unique in the map. -/
def mapEraseKey (k : K) : List (K × V) → List (K × V)
  | [] => []
  | p :: ps => if p.1 = k then ps else p :: mapEraseKey k ps

/-- In-place mutation of the entry for `k` through an iterator
(`it->second.value = val` and the like). -/
def mapModify (k : K) (f : V → V) : List (K × V) → List (K × V)
  | [] => []
  | p :: ps => if p.1 = k then (k, f p.2) :: ps else p :: mapModify k f ps

/-! ## Model of the head-eviction LRU cache

Translated from src/libs/lru/details/std_lru_cache.h
(class wstux::lru::lru_cache).  The recency list m_lru_list keeps the
least-recently-used key at its front and the most-recently-used key at
its back; move_to_top splices an element to list.end(). -/

structure StdLru (K V : Type) where
  capacity : Nat
  msize : Nat
  cache : List (K × V)
  lruList : List K
deriving DecidableEq

namespace StdLru

/-- Constructor lru_cache(capacity): empty map and list, size 0. -/
def init (K V : Type) (c : Nat) : StdLru K V :=
  { capacity := c, msize := 0, cache := [], lruList := [] }

/-- move_to_top(list, it): list.splice(list.end(), list, it) moves the
element `it` points at (the unique occurrence of its key) to the end. -/
def moveToTop (l : List K) (k : K) : List K :=
  l.erase k ++ [k]

/-- insert_to_cache(key, args...): when full, erase the key at the list
front from the map, overwrite the front element with the new key,
emplace the new entry and splice it to the back; otherwise append the
key at the back and emplace, incrementing m_size.  With an empty list
and m_size >= m_capacity the C++ calls m_lru_list.front() on an empty
list, which is undefined behaviour; the model returns the state
unchanged on that branch, and every theorem below excludes it via
0 < capacity. -/
def insertToCache (s : StdLru K V) (k : K) (v : V) : StdLru K V :=
  if s.capacity ≤ s.msize then
    match s.lruList with
    | [] => s
    | h :: t =>
      { s with cache := (k, v) :: mapEraseKey h s.cache, lruList := t ++ [k] }
  else
    { s with cache := (k, v) :: s.cache, lruList := s.lruList ++ [k],
             msize := s.msize + 1 }

/-- contains(key): moves a present key's element to the back (touch). -/
def contains (s : StdLru K V) (k : K) : StdLru K V × Bool :=
  match mapFind? k s.cache with
  | some _ => ({ s with lruList := moveToTop s.lruList k }, true)
  | none => (s, false)

/-- find(key, result): touch on hit and copy the value out. -/
def find (s : StdLru K V) (k : K) : StdLru K V × Option V :=
  match mapFind? k s.cache with
  | some v => ({ s with lruList := moveToTop s.lruList k }, some v)
  | none => (s, none)

/-- insert(key, val): on a present key only touch and report false;
otherwise insert_to_cache and report true. -/
def insert (s : StdLru K V) (k : K) (v : V) : StdLru K V × Bool :=
  match mapFind? k s.cache with
  | some _ => ({ s with lruList := moveToTop s.lruList k }, false)
  | none => (insertToCache s k v, true)

/-- emplace(key, args...): same control flow as insert; the value the
C++ would construct from args is the argument `v`. -/
def emplace (s : StdLru K V) (k : K) (v : V) : StdLru K V × Bool :=
  match mapFind? k s.cache with
  | some _ => ({ s with lruList := moveToTop s.lruList k }, false)
  | none => (insertToCache s k v, true)

/-- update(key, val): overwrite in place and touch when present, else
insert_to_cache. -/
def update (s : StdLru K V) (k : K) (v : V) : StdLru K V :=
  match mapFind? k s.cache with
  | some _ =>
    { s with cache := mapModify k (fun _ => v) s.cache,
             lruList := moveToTop s.lruList k }
  | none => insertToCache s k v

/-- erase(key): remove from both structures and decrement m_size. -/
def erase (s : StdLru K V) (k : K) : StdLru K V :=
  match mapFind? k s.cache with
  | some _ =>
    { s with cache := mapEraseKey k s.cache, lruList := s.lruList.erase k,
             msize := s.msize - 1 }
  | none => s

/-- reserve(new_capacity): only m_capacity changes (the hash-table
reserve call affects bucket count, not contents). -/
def reserve (s : StdLru K V) (n : Nat) : StdLru K V :=
  { s with capacity := n }

/-- clear(): size 0, both containers emptied; m_capacity kept. -/
def clear (s : StdLru K V) : StdLru K V :=
  { s with msize := 0, cache := [], lruList := [] }

end StdLru

/-- Operations cited by the capacity-invariant claim, on a cache with
Nat keys and values. -/
inductive Op (K V : Type) where
  | ins (k : K) (v : V)
  | emp (k : K) (v : V)
  | upd (k : K) (v : V)
  | del (k : K)
  | fnd (k : K)
  | con (k : K)

namespace StdLru

def step (s : StdLru K V) : Op K V → StdLru K V
  | .ins k v => (s.insert k v).1
  | .emp k v => (s.emplace k v).1
  | .upd k v => s.update k v
  | .del k => s.erase k
  | .fnd k => (s.find k).1
  | .con k => (s.contains k).1

def run (s : StdLru K V) : List (Op K V) → StdLru K V :=
  List.foldl step s

/-- Structural invariant of the head-eviction cache: the size counter
matches both containers, stays within capacity, the recency list has no
duplicates and carries exactly the keys of the hash table. -/
structure WF (s : StdLru K V) : Prop where
  sizeCache : s.msize = s.cache.length
  sizeList : s.msize = s.lruList.length
  sizeLe : s.msize ≤ s.capacity
  nodupList : s.lruList.Nodup
  permKeys : s.cache.map Prod.fst ~ s.lruList


end StdLru

/-! ## Model of the front-emplace/back-pop LRU cache

Translated from src/libs/lru/lru_cache.h (class wstux::lru::lru_cache,
the variant included by lru/thread_safe_lru_cache.h).  Here the recency
list keeps the most-recently-used key at its front and the LRU victim
at its back; move_to_front splices an element to list.begin(). -/

structure FrontLru (K V : Type) where
  capacity : Nat
  msize : Nat
  cache : List (K × V)
  lruList : List K
deriving DecidableEq

namespace FrontLru

/-- Constructor lru_cache(capacity). -/
def init (K V : Type) (c : Nat) : FrontLru K V :=
  { capacity := c, msize := 0, cache := [], lruList := [] }

/-- move_to_front(list, it): list.splice(list.begin(), list, it). -/
def moveToFront (l : List K) (k : K) : List K :=
  k :: l.erase k

/-- Tail shared by insert/emplace/update after m_cache.emplace
succeeded on an absent key: emplace_front the key, then if
m_size >= m_capacity look up the back key, pop_back and erase it from
the map, returning true; else increment m_size and return true.  The
C++ guard `if (m_lru_list.empty()) return false;` is the none arm of
the getLast? match (unreachable, as the key was just pushed). -/
def insertFresh (s : FrontLru K V) (k : K) (v : V) : FrontLru K V × Bool :=
  let s1 : FrontLru K V :=
    { s with cache := (k, v) :: s.cache, lruList := k :: s.lruList }
  if s.capacity ≤ s.msize then
    match s1.lruList.getLast? with
    | none => (s1, false)
    | some b =>
      ({ s1 with cache := mapEraseKey b s1.cache,
                 lruList := s1.lruList.dropLast }, true)
  else
    ({ s1 with msize := s.msize + 1 }, true)

/-- insert(key, val): m_cache.emplace fails on a present key and the
function returns false without touching anything. -/
def insert (s : FrontLru K V) (k : K) (v : V) : FrontLru K V × Bool :=
  match mapFind? k s.cache with
  | some _ => (s, false)
  | none => insertFresh s k v

/-- emplace(key, args...): same control flow as insert. -/
def emplace (s : FrontLru K V) (k : K) (v : V) : FrontLru K V × Bool :=
  match mapFind? k s.cache with
  | some _ => (s, false)
  | none => insertFresh s k v

/-- update(key, val): overwrite in place and move to front when
present, else the fresh-insert tail. -/
def update (s : FrontLru K V) (k : K) (v : V) : FrontLru K V :=
  match mapFind? k s.cache with
  | some _ =>
    { s with cache := mapModify k (fun _ => v) s.cache,
             lruList := moveToFront s.lruList k }
  | none => (insertFresh s k v).1

/-- contains(key): move to front (touch) on hit. -/
def contains (s : FrontLru K V) (k : K) : FrontLru K V × Bool :=
  match mapFind? k s.cache with
  | some _ => ({ s with lruList := moveToFront s.lruList k }, true)
  | none => (s, false)

/-- find(key, result): touch on hit and copy the value out. -/
def find (s : FrontLru K V) (k : K) : FrontLru K V × Option V :=
  match mapFind? k s.cache with
  | some v => ({ s with lruList := moveToFront s.lruList k }, some v)
  | none => (s, none)

/-- erase(key): remove from both structures and decrement m_size. -/
def erase (s : FrontLru K V) (k : K) : FrontLru K V :=
  match mapFind? k s.cache with
  | some _ =>
    { s with cache := mapEraseKey k s.cache, lruList := s.lruList.erase k,
             msize := s.msize - 1 }
  | none => s

def step (s : FrontLru K V) : Op K V → FrontLru K V
  | .ins k v => (s.insert k v).1
  | .emp k v => (s.emplace k v).1
  | .upd k v => s.update k v
  | .del k => s.erase k
  | .fnd k => (s.find k).1
  | .con k => (s.contains k).1

def run (s : FrontLru K V) : List (Op K V) → FrontLru K V :=
  List.foldl step s


/-- Structural invariant, as for the head-eviction variant. -/
structure WF (s : FrontLru K V) : Prop where
  sizeCache : s.msize = s.cache.length
  sizeList : s.msize = s.lruList.length
  sizeLe : s.msize ≤ s.capacity
  nodupList : s.lruList.Nodup
  permKeys : s.cache.map Prod.fst ~ s.lruList


end FrontLru

/-! ## Models of the TTL cache

The TTL cache public class (src/libs/ttl/ttl_cache.h) delegates to a
base class of which the repository ships two versions under the same
name: the boost::intrusive one in src/libs/ttl/details/base_ttl_cache.h
(the header ttl_cache.h includes) and the std one in
src/libs/ttl/details/std_base_ttl_cache.h.  Both are modelled below.
std::chrono::steady_clock::now() is passed to each public operation as
the explicit argument `now`; all now() calls inside one C++ operation
read the clock within the same call, modelled as the same value. -/

/-- Payload of a node or hash-table slot: the cached value and the
last-touch time point. -/
structure TtlEntry (V : Type) where
  value : V
  timePoint : Nat
deriving DecidableEq

/-- is_expired(it): duration_cast to milliseconds of now() - time_point
strictly greater than m_time_to_live.  On the steady clock the
difference is non-negative, so the truncated Nat subtraction agrees
with the signed C++ comparison. -/
def isExpired (now ttl : Nat) (e : TtlEntry V) : Bool :=
  decide (ttl < now - e.timePoint)

/-- Intrusive-backend TTL cache
(src/libs/ttl/details/base_ttl_cache.h plus the public operations of
src/libs/ttl/ttl_cache.h).  One node participates in both the hash
table and the recency list, so a single list of nodes in recency order
(head = m_ttl_list.begin(), the oldest) models both containers; the
hash-table size is the length of that list. -/
structure TtlIntru (K V : Type) where
  capacity : Nat
  ttl : Nat
  nodes : List (K × TtlEntry V)
deriving DecidableEq

namespace TtlIntru

/-- Constructor ttl_cache(ttl_msecs, capacity). -/
def init (K V : Type) (ttl c : Nat) : TtlIntru K V :=
  { capacity := c, ttl := ttl, nodes := [] }

def size (s : TtlIntru K V) : Nat := s.nodes.length

/-- move_to_top(it): m_ttl_list.splice(end, list, iterator_to(*it))
moves the node to the back of the list.  The node itself — value and
time_point included — is not modified. -/
def moveToTop (k : K) (l : List (K × TtlEntry V)) : List (K × TtlEntry V) :=
  match l.find? (fun p => decide (p.1 = k)) with
  | none => l
  | some p => mapEraseKey k l ++ [p]

/-- base_ttl_cache::insert(key, args...): when full, extract_node on
m_ttl_list.begin() reuses the oldest node — its key and value are
overwritten but its time_point is left as it was — and insert_node
re-links it at the back; otherwise a fresh node is allocated, stamped
with now() by the ttl_node constructor, and linked at the back.
extract_node on an empty list is undefined behaviour in the C++ (only
reachable with capacity 0); the model returns the state unchanged
there. -/
def insertBase (s : TtlIntru K V) (k : K) (v : V) (now : Nat) :
    TtlIntru K V :=
  if s.capacity ≤ s.nodes.length then
    match s.nodes with
    | [] => s
    | h :: t => { s with nodes := t ++ [(k, ⟨v, h.2.timePoint⟩)] }
  else
    { s with nodes := s.nodes ++ [(k, ⟨v, now⟩)] }

/-- ttl_cache::contains(key). -/
def contains (s : TtlIntru K V) (k : K) (now : Nat) : TtlIntru K V × Bool :=
  match mapFind? k s.nodes with
  | some e =>
    if isExpired now s.ttl e then (s, false)
    else ({ s with nodes := moveToTop k s.nodes }, true)
  | none => (s, false)

/-- ttl_cache::find(key, result): a present-but-expired entry is erased
from both structures and reported absent; a fresh one is touched and
returned. -/
def find (s : TtlIntru K V) (k : K) (now : Nat) :
    TtlIntru K V × Option V :=
  match mapFind? k s.nodes with
  | some e =>
    if isExpired now s.ttl e then
      ({ s with nodes := mapEraseKey k s.nodes }, none)
    else ({ s with nodes := moveToTop k s.nodes }, some e.value)
  | none => (s, none)

/-- ttl_cache::insert(key, val): on a present expired key, store (which
overwrites only the value) then move_to_top, reporting true; on a
present fresh key, move_to_top and report false; else base insert and
report true. -/
def insert (s : TtlIntru K V) (k : K) (v : V) (now : Nat) :
    TtlIntru K V × Bool :=
  match mapFind? k s.nodes with
  | some e =>
    if isExpired now s.ttl e then
      ({ s with nodes :=
          moveToTop k (mapModify k (fun e0 => ⟨v, e0.timePoint⟩) s.nodes) },
       true)
    else ({ s with nodes := moveToTop k s.nodes }, false)
  | none => (insertBase s k v now, true)

/-- ttl_cache::emplace(key, args...): same control flow as insert. -/
def emplace (s : TtlIntru K V) (k : K) (v : V) (now : Nat) :
    TtlIntru K V × Bool :=
  match mapFind? k s.nodes with
  | some e =>
    if isExpired now s.ttl e then
      ({ s with nodes :=
          moveToTop k (mapModify k (fun e0 => ⟨v, e0.timePoint⟩) s.nodes) },
       true)
    else ({ s with nodes := moveToTop k s.nodes }, false)
  | none => (insertBase s k v now, true)

/-- ttl_cache::update(key, val): store then move_to_top when present
(expired or not), else base insert. -/
def update (s : TtlIntru K V) (k : K) (v : V) (now : Nat) : TtlIntru K V :=
  match mapFind? k s.nodes with
  | some _ =>
    { s with nodes :=
        moveToTop k (mapModify k (fun e0 => ⟨v, e0.timePoint⟩) s.nodes) }
  | none => insertBase s k v now

/-- base_ttl_cache::erase(key): unlink from both containers. -/
def erase (s : TtlIntru K V) (k : K) : TtlIntru K V :=
  match mapFind? k s.nodes with
  | some _ => { s with nodes := mapEraseKey k s.nodes }
  | none => s

end TtlIntru

/-- Std-backend TTL cache
(src/libs/ttl/details/std_base_ttl_cache.h plus the public operations
of src/libs/ttl/ttl_cache.h): an unordered_map from key to
(value, time_point) and a list of keys, oldest at the front. -/
structure TtlStd (K V : Type) where
  capacity : Nat
  ttl : Nat
  tbl : List (K × TtlEntry V)
  list : List K
deriving DecidableEq

namespace TtlStd

/-- Constructor ttl_cache(ttl_msecs, capacity). -/
def init (K V : Type) (ttl c : Nat) : TtlStd K V :=
  { capacity := c, ttl := ttl, tbl := [], list := [] }

def size (s : TtlStd K V) : Nat := s.tbl.length

/-- move_to_top(it): splice the key to the back of m_ttl_list and set
it->second.time_point = now() — this backend refreshes the timestamp on
every touch. -/
def touch (s : TtlStd K V) (k : K) (now : Nat) : TtlStd K V :=
  { s with list := s.list.erase k ++ [k],
           tbl := mapModify k (fun e => ⟨e.value, now⟩) s.tbl }

/-- base insert(key, args...): when full, erase the front key from the
table, overwrite the front list element with the new key, emplace a
fresh slot (stamped now() by the _hash_table_value constructor) and
move_to_top it; otherwise append the key and emplace.  front() on an
empty list is undefined behaviour (capacity 0 only); the model returns
the state unchanged there. -/
def insertBase (s : TtlStd K V) (k : K) (v : V) (now : Nat) : TtlStd K V :=
  if s.capacity ≤ s.tbl.length then
    match s.list with
    | [] => s
    | h :: t =>
      touch { s with tbl := (k, ⟨v, now⟩) :: mapEraseKey h s.tbl,
                     list := k :: t } k now
  else
    { s with tbl := (k, ⟨v, now⟩) :: s.tbl, list := s.list ++ [k] }

/-- ttl_cache::contains(key). -/
def contains (s : TtlStd K V) (k : K) (now : Nat) : TtlStd K V × Bool :=
  match mapFind? k s.tbl with
  | some e =>
    if isExpired now s.ttl e then (s, false) else (touch s k now, true)
  | none => (s, false)

/-- ttl_cache::find(key, result). -/
def find (s : TtlStd K V) (k : K) (now : Nat) : TtlStd K V × Option V :=
  match mapFind? k s.tbl with
  | some e =>
    if isExpired now s.ttl e then
      ({ s with tbl := mapEraseKey k s.tbl, list := s.list.erase k }, none)
    else (touch s k now, some e.value)
  | none => (s, none)

/-- ttl_cache::insert(key, val). -/
def insert (s : TtlStd K V) (k : K) (v : V) (now : Nat) :
    TtlStd K V × Bool :=
  match mapFind? k s.tbl with
  | some e =>
    if isExpired now s.ttl e then
      (touch { s with tbl := mapModify k (fun e0 => ⟨v, e0.timePoint⟩) s.tbl }
         k now, true)
    else (touch s k now, false)
  | none => (insertBase s k v now, true)

/-- ttl_cache::update(key, val). -/
def update (s : TtlStd K V) (k : K) (v : V) (now : Nat) : TtlStd K V :=
  match mapFind? k s.tbl with
  | some _ =>
    touch { s with tbl := mapModify k (fun e0 => ⟨v, e0.timePoint⟩) s.tbl }
      k now
  | none => insertBase s k v now


end TtlStd

/-! ## Shard capacity division

Translated from the constructors of
src/libs/lru/thread_safe_lru_cache.h and
src/libs/ttl/thread_safe_ttl_cache.h. -/

/-- Number of shards actually constructed:
(m_capacity > shards_count) ? shards_count : m_capacity. -/
def shardCount (capacity shards : Nat) : Nat :=
  if shards < capacity then shards else capacity

/-- Capacity handed to shard i when n shards are constructed:
(i != 0) ? (capacity / n) : (capacity / n + capacity % n). -/
def shardCapacity (capacity n i : Nat) : Nat :=
  if i ≠ 0 then capacity / n else capacity / n + capacity % n

/-- The list of shard capacities the constructor loop produces. -/
def shardCapacities (capacity shards : Nat) : List Nat :=
  (List.range (shardCount capacity shards)).map
    (shardCapacity capacity (shardCount capacity shards))

/-- The operation sequence that fills a cache with keys 0..m-1 (each
key cached with itself as value). -/
def fillSeq (m : Nat) : List (Op Nat Nat) :=
  (List.range m).map (fun i => Op.ins i i)

/-! ## Lemmas about the association-list primitives -/

theorem mapFind?_nil (k : K) : mapFind? (V := V) k [] = none := rfl

theorem mapFind?_cons (k : K) (p : K × V) (l : List (K × V)) :
    mapFind? k (p :: l) = if p.1 = k then some p.2 else mapFind? k l := by
  by_cases h : p.1 = k <;> simp [mapFind?, List.find?, h]

theorem mapFind?_eq_none {k : K} {l : List (K × V)} :
    mapFind? k l = none ↔ k ∉ l.map Prod.fst := by
  induction l with
  | nil => simp [mapFind?]
  | cons p ps ih =>
    rw [mapFind?_cons]
    by_cases h : p.1 = k
    · simp [h]
    · simp only [if_neg h, ih, List.map_cons, List.mem_cons]
      constructor
      · intro hn hmem
        rcases hmem with hmem | hmem
        · exact h hmem.symm
        · exact hn hmem
      · intro hn hmem
        exact hn (Or.inr hmem)

theorem mapFind?_isSome {k : K} {l : List (K × V)} :
    (mapFind? k l).isSome = true ↔ k ∈ l.map Prod.fst := by
  cases hf : mapFind? k l with
  | none =>
    have := mapFind?_eq_none.mp hf
    simp [this]
  | some v =>
    have hne : ¬ mapFind? k l = none := by simp [hf]
    rw [mapFind?_eq_none] at hne
    simp [not_not.mp hne]

theorem map_fst_mapEraseKey (k : K) (l : List (K × V)) :
    (mapEraseKey k l).map Prod.fst = (l.map Prod.fst).erase k := by
  induction l with
  | nil => rfl
  | cons p ps ih =>
    by_cases h : p.1 = k
    · simp [mapEraseKey, h, List.erase_cons_head]
    · simp only [mapEraseKey, if_neg h, List.map_cons, ih]
      rw [List.erase_cons_tail]
      simp [h]

theorem map_fst_mapModify (k : K) (f : V → V) (l : List (K × V)) :
    (mapModify k f l).map Prod.fst = l.map Prod.fst := by
  induction l with
  | nil => rfl
  | cons p ps ih =>
    by_cases h : p.1 = k <;> simp [mapModify, h, ih]

theorem mapFind?_mapModify_self (k : K) (f : V → V) (l : List (K × V)) :
    mapFind? k (mapModify k f l) = (mapFind? k l).map f := by
  induction l with
  | nil => rfl
  | cons p ps ih =>
    by_cases h : p.1 = k
    · simp [mapModify, h, mapFind?_cons]
    · simp [mapModify, h, mapFind?_cons, ih]

theorem mapFind?_mapEraseKey_self {k : K} {l : List (K × V)}
    (h : (l.map Prod.fst).Nodup) : mapFind? k (mapEraseKey k l) = none := by
  rw [mapFind?_eq_none, map_fst_mapEraseKey]
  exact h.not_mem_erase

theorem length_mapEraseKey_of_mem {k : K} {l : List (K × V)}
    (h : k ∈ l.map Prod.fst) : (mapEraseKey k l).length = l.length - 1 := by
  induction l with
  | nil => simp at h
  | cons p ps ih =>
    by_cases hp : p.1 = k
    · simp [mapEraseKey, hp]
    · have hmem : k ∈ ps.map Prod.fst := by
        have h' : k = p.1 ∨ k ∈ ps.map Prod.fst := by simpa using h
        rcases h' with h1 | h1
        · exact absurd h1.symm hp
        · exact h1
      have hpos : 0 < ps.length := by
        cases ps with
        | nil => simp at hmem
        | cons q qs => simp
      simp only [mapEraseKey, if_neg hp, List.length_cons, ih hmem]
      omega

theorem mapEraseKey_cons_of_ne {k : K} {p : K × V} (h : p.1 ≠ k)
    (l : List (K × V)) : mapEraseKey k (p :: l) = p :: mapEraseKey k l := by
  simp [mapEraseKey, h]

theorem mapEraseKey_cons_self (k : K) (v : V) (l : List (K × V)) :
    mapEraseKey k ((k, v) :: l) = l := by
  simp [mapEraseKey]

theorem length_mapModify (k : K) (f : V → V) (l : List (K × V)) :
    (mapModify k f l).length = l.length := by
  induction l with
  | nil => rfl
  | cons p ps ih =>
    by_cases h : p.1 = k <;> simp [mapModify, h, ih]

theorem mem_of_mapFind?_eq_some {k : K} {l : List (K × V)} {v : V}
    (h : mapFind? k l = some v) : k ∈ l.map Prod.fst :=
  mapFind?_isSome.mp (by simp [h])

theorem not_mem_of_mapFind?_eq_none {k : K} {l : List (K × V)}
    (h : mapFind? k l = none) : k ∉ l.map Prod.fst :=
  mapFind?_eq_none.mp h

theorem perm_mapEraseKey_of_find? {k : K} {l : List (K × V)} {p : K × V}
    (h : l.find? (fun q => decide (q.1 = k)) = some p) :
    l ~ p :: mapEraseKey k l := by
  induction l with
  | nil => simp at h
  | cons q qs ih =>
    by_cases hq : q.1 = k
    · rw [List.find?_cons_of_pos _ (by simp [hq])] at h
      cases h
      simp [mapEraseKey, hq]
    · rw [List.find?_cons_of_neg _ (by simp [hq])] at h
      simp only [mapEraseKey, if_neg hq]
      exact (List.Perm.cons q (ih h)).trans (List.Perm.swap p q (mapEraseKey k qs))


/-! ## Invariant preservation for the head-eviction cache -/

namespace StdLru

theorem wf_init (K V : Type) (c : Nat) : WF (init K V c) :=
  ⟨rfl, rfl, Nat.zero_le c, List.nodup_nil, List.Perm.refl []⟩

theorem insertToCache_full {s : StdLru K V} {k : K} {v : V} {hd : K} {t : List K}
    (hfull : s.capacity ≤ s.msize) (hl : s.lruList = hd :: t) :
    insertToCache s k v =
      { s with cache := (k, v) :: mapEraseKey hd s.cache, lruList := t ++ [k] } := by
  unfold insertToCache
  rw [if_pos hfull, hl]

theorem insertToCache_notFull {s : StdLru K V} {k : K} {v : V}
    (hfull : ¬ s.capacity ≤ s.msize) :
    insertToCache s k v =
      { s with cache := (k, v) :: s.cache, lruList := s.lruList ++ [k],
               msize := s.msize + 1 } := by
  unfold insertToCache
  rw [if_neg hfull]

theorem wf_insertToCache {s : StdLru K V} {k : K} (v : V) (hwf : WF s)
    (hcap : 0 < s.capacity) (habs : k ∉ s.cache.map Prod.fst) :
    WF (insertToCache s k v) := by
  obtain ⟨h1, h2, h3, h4, h5⟩ := hwf
  by_cases hfull : s.capacity ≤ s.msize
  · have hmsize : s.msize = s.capacity := Nat.le_antisymm h3 hfull
    cases hl : s.lruList with
    | nil =>
      exfalso
      rw [hl] at h2
      simp at h2
      omega
    | cons hd t =>
      have hnd : (hd :: t).Nodup := hl ▸ h4
      have hperm : s.cache.map Prod.fst ~ hd :: t := hl ▸ h5
      have hmem_hd : hd ∈ s.cache.map Prod.fst :=
        hperm.mem_iff.mpr (List.mem_cons_self hd t)
      have hkt : k ∉ t := fun hk =>
        habs (hperm.mem_iff.mpr (List.mem_cons_of_mem hd hk))
      have hlent : s.msize = t.length + 1 := by
        rw [hl] at h2; simpa using h2
      have hlenc : 0 < s.cache.length := by
        have := List.length_pos_of_mem (List.mem_map.mp hmem_hd).choose_spec.1
        omega
      rw [insertToCache_full hfull hl]
      refine ⟨?_, ?_, h3, ?_, ?_⟩
      · show s.msize = ((k, v) :: mapEraseKey hd s.cache).length
        rw [List.length_cons, length_mapEraseKey_of_mem hmem_hd]
        omega
      · show s.msize = (t ++ [k]).length
        simp [hlent]
      · show (t ++ [k]).Nodup
        exact ((List.nodup_cons.mp hnd).2).append (List.nodup_singleton k)
          (by simpa [List.disjoint_singleton] using hkt)
      · show ((k, v) :: mapEraseKey hd s.cache).map Prod.fst ~ t ++ [k]
        rw [List.map_cons, map_fst_mapEraseKey]
        have he : (s.cache.map Prod.fst).erase hd ~ t := by
          have h' := hperm.erase hd
          rwa [List.erase_cons_head] at h'
        exact (he.cons k).trans
          (by simpa using (List.perm_append_comm : [k] ++ t ~ t ++ [k]))
  · rw [insertToCache_notFull hfull]
    have hk : k ∉ s.lruList := fun hk => habs (h5.mem_iff.mpr hk)
    refine ⟨?_, ?_, ?_, ?_, ?_⟩
    · simp [h1]
    · simp [h2]
    · show s.msize + 1 ≤ s.capacity
      omega
    · exact h4.append (List.nodup_singleton k)
        (by simpa [List.disjoint_singleton] using hk)
    · rw [List.map_cons]
      exact (h5.cons k).trans
        (by simpa using (List.perm_append_comm : [k] ++ s.lruList ~ s.lruList ++ [k]))

theorem wf_touch {s : StdLru K V} {k : K} (hwf : WF s)
    (hk : k ∈ s.cache.map Prod.fst) :
    WF { s with lruList := moveToTop s.lruList k } := by
  obtain ⟨h1, h2, h3, h4, h5⟩ := hwf
  have hkl : k ∈ s.lruList := h5.mem_iff.mp hk
  refine ⟨h1, ?_, h3, ?_, ?_⟩
  · show s.msize = (s.lruList.erase k ++ [k]).length
    rw [List.length_append, List.length_erase_of_mem hkl]
    have := List.length_pos_of_mem hkl
    simp
    omega
  · show (s.lruList.erase k ++ [k]).Nodup
    exact (h4.erase k).append (List.nodup_singleton k)
      (by simpa [List.disjoint_singleton] using h4.not_mem_erase)
  · show s.cache.map Prod.fst ~ s.lruList.erase k ++ [k]
    exact (h5.trans (List.perm_cons_erase hkl)).trans
      (by simpa using (List.perm_append_comm : [k] ++ s.lruList.erase k ~ s.lruList.erase k ++ [k]))

theorem wf_erase {s : StdLru K V} (hwf : WF s) (k : K) : WF (s.erase k) := by
  obtain ⟨h1, h2, h3, h4, h5⟩ := hwf
  unfold erase
  cases hf : mapFind? k s.cache with
  | none => exact ⟨h1, h2, h3, h4, h5⟩
  | some v =>
    have hk : k ∈ s.cache.map Prod.fst := mem_of_mapFind?_eq_some hf
    have hkl : k ∈ s.lruList := h5.mem_iff.mp hk
    have hpos : 0 < s.lruList.length := List.length_pos_of_mem hkl
    refine ⟨?_, ?_, ?_, h4.erase k, ?_⟩
    · show s.msize - 1 = (mapEraseKey k s.cache).length
      rw [length_mapEraseKey_of_mem hk]
      omega
    · show s.msize - 1 = (s.lruList.erase k).length
      rw [List.length_erase_of_mem hkl]
      omega
    · show s.msize - 1 ≤ s.capacity
      omega
    · show (mapEraseKey k s.cache).map Prod.fst ~ s.lruList.erase k
      rw [map_fst_mapEraseKey]
      exact h5.erase k

theorem wf_update {s : StdLru K V} (hwf : WF s) (hcap : 0 < s.capacity)
    (k : K) (v : V) : WF (s.update k v) := by
  unfold update
  cases hf : mapFind? k s.cache with
  | none => exact wf_insertToCache v hwf hcap (not_mem_of_mapFind?_eq_none hf)
  | some w =>
    have hk : k ∈ s.cache.map Prod.fst := mem_of_mapFind?_eq_some hf
    have h' := wf_touch hwf hk
    obtain ⟨h1, h2, h3, h4, h5⟩ := h'
    refine ⟨?_, h2, h3, h4, ?_⟩
    · show s.msize = (mapModify k (fun _ => v) s.cache).length
      rw [length_mapModify]
      exact hwf.sizeCache
    · show (mapModify k (fun _ => v) s.cache).map Prod.fst ~ _
      rw [map_fst_mapModify]
      exact h5

theorem wf_step {s : StdLru K V} (hwf : WF s) (hcap : 0 < s.capacity)
    (o : Op K V) : WF (step s o) := by
  cases o with
  | ins k v =>
    show WF (s.insert k v).1
    unfold insert
    cases hf : mapFind? k s.cache with
    | none => exact wf_insertToCache v hwf hcap (not_mem_of_mapFind?_eq_none hf)
    | some w => exact wf_touch hwf (mem_of_mapFind?_eq_some hf)
  | emp k v =>
    show WF (s.emplace k v).1
    unfold emplace
    cases hf : mapFind? k s.cache with
    | none => exact wf_insertToCache v hwf hcap (not_mem_of_mapFind?_eq_none hf)
    | some w => exact wf_touch hwf (mem_of_mapFind?_eq_some hf)
  | upd k v => exact wf_update hwf hcap k v
  | del k => exact wf_erase hwf k
  | fnd k =>
    show WF (s.find k).1
    unfold find
    cases hf : mapFind? k s.cache with
    | none => exact hwf
    | some w => exact wf_touch hwf (mem_of_mapFind?_eq_some hf)
  | con k =>
    show WF (s.contains k).1
    unfold contains
    cases hf : mapFind? k s.cache with
    | none => exact hwf
    | some w => exact wf_touch hwf (mem_of_mapFind?_eq_some hf)

theorem capacity_step (s : StdLru K V) (o : Op K V) :
    (step s o).capacity = s.capacity := by
  cases o with
  | ins k v =>
    show (s.insert k v).1.capacity = s.capacity
    unfold insert insertToCache
    cases hf : mapFind? k s.cache
    · dsimp only
      split
      · cases s.lruList <;> rfl
      · rfl
    · rfl
  | emp k v =>
    show (s.emplace k v).1.capacity = s.capacity
    unfold emplace insertToCache
    cases hf : mapFind? k s.cache
    · dsimp only
      split
      · cases s.lruList <;> rfl
      · rfl
    · rfl
  | upd k v =>
    show (s.update k v).capacity = s.capacity
    unfold update insertToCache
    cases hf : mapFind? k s.cache
    · dsimp only
      split
      · cases s.lruList <;> rfl
      · rfl
    · rfl
  | del k =>
    show (s.erase k).capacity = s.capacity
    unfold erase
    cases hf : mapFind? k s.cache <;> rfl
  | fnd k =>
    show (s.find k).1.capacity = s.capacity
    unfold find
    cases hf : mapFind? k s.cache <;> rfl
  | con k =>
    show (s.contains k).1.capacity = s.capacity
    unfold contains
    cases hf : mapFind? k s.cache <;> rfl

theorem contains_snd (s : StdLru K V) (k : K) :
    (s.contains k).2 = (mapFind? k s.cache).isSome := by
  unfold contains
  cases mapFind? k s.cache <;> rfl

theorem insert_at_capacity {s : StdLru K V} {k : K} {v : V} (hwf : WF s)
    (hfull : s.msize = s.capacity)
    (habs : k ∉ s.cache.map Prod.fst) :
    (s.insert k v).2 = true ∧ (s.insert k v).1.msize = s.capacity ∧
    ∀ hd t, s.lruList = hd :: t →
      hd ∉ (s.insert k v).1.cache.map Prod.fst ∧
      (s.insert k v).1.cache.map Prod.fst ~ k :: t ∧
      (s.insert k v).1.lruList = t ++ [k] := by
  have hfind : mapFind? k s.cache = none := mapFind?_eq_none.mpr habs
  have hle : s.capacity ≤ s.msize := Nat.le_of_eq hfull.symm
  have heq : s.insert k v = (insertToCache s k v, true) := by
    unfold insert
    rw [hfind]
  refine ⟨by rw [heq], ?_, ?_⟩
  · rw [heq]
    show (insertToCache s k v).msize = s.capacity
    unfold insertToCache
    rw [if_pos hle]
    cases hl : s.lruList with
    | nil => simpa using hfull
    | cons hd t => simpa using hfull
  · intro hd t hl
    rw [heq, insertToCache_full hle hl]
    dsimp only
    obtain ⟨h1, h2, h3, h4, h5⟩ := hwf
    have hperm : s.cache.map Prod.fst ~ hd :: t := hl ▸ h5
    have hmem_hd : hd ∈ s.cache.map Prod.fst := hperm.mem_iff.mpr (by simp)
    have hdk : hd ≠ k := fun hekk => habs (hekk ▸ hmem_hd)
    have hdt : hd ∉ t := (List.nodup_cons.mp (hl ▸ h4)).1
    have hperm2 : ((k, v) :: mapEraseKey hd s.cache).map Prod.fst
        ~ k :: t := by
      rw [List.map_cons, map_fst_mapEraseKey]
      have h' := hperm.erase hd
      rw [List.erase_cons_head] at h'
      exact h'.cons k
    refine ⟨?_, hperm2, rfl⟩
    intro hmem
    rcases List.mem_cons.mp (hperm2.mem_iff.mp hmem) with h' | h'
    · exact hdk h'
    · exact hdt h'

theorem wf_run {s : StdLru K V} (hwf : WF s) (hcap : 0 < s.capacity)
    (ops : List (Op K V)) :
    WF (run s ops) ∧ (run s ops).capacity = s.capacity := by
  induction ops generalizing s with
  | nil => exact ⟨hwf, rfl⟩
  | cons o os ih =>
    have hc := capacity_step s o
    have h' := ih (wf_step hwf hcap o) (by rw [hc]; exact hcap)
    exact ⟨h'.1, h'.2.trans hc⟩


end StdLru

/-! ## Invariant preservation for the front-emplace/back-pop cache -/

namespace FrontLru

theorem front_wf_init (K V : Type) (c : Nat) : WF (init K V c) :=
  ⟨rfl, rfl, Nat.zero_le c, List.nodup_nil, List.Perm.refl []⟩

theorem insertFresh_notFull {s : FrontLru K V} {k : K} {v : V}
    (hfull : ¬ s.capacity ≤ s.msize) :
    insertFresh s k v =
      ({ s with cache := (k, v) :: s.cache, lruList := k :: s.lruList,
                msize := s.msize + 1 }, true) := by
  unfold insertFresh
  rw [if_neg hfull]

theorem insertFresh_full_nil {s : FrontLru K V} {k : K} {v : V}
    (hfull : s.capacity ≤ s.msize) (hl : s.lruList = []) :
    insertFresh s k v =
      ({ s with cache := mapEraseKey k ((k, v) :: s.cache), lruList := [] },
       true) := by
  unfold insertFresh
  rw [if_pos hfull, hl]
  rfl

theorem insertFresh_full_concat {s : FrontLru K V} {k : K} {v : V}
    {ys : List K} {b : K}
    (hfull : s.capacity ≤ s.msize) (hl : s.lruList = ys ++ [b]) :
    insertFresh s k v =
      ({ s with cache := mapEraseKey b ((k, v) :: s.cache),
                lruList := k :: ys }, true) := by
  unfold insertFresh
  rw [if_pos hfull, hl]
  dsimp only
  have hlast : ((k :: (ys ++ [b])).getLast? : Option K) = some b := by
    rw [← List.cons_append, List.getLast?_concat]
  have hdrop : ((k :: (ys ++ [b])).dropLast : List K) = k :: ys := by
    rw [← List.cons_append, List.dropLast_concat]
  simp only [hlast, hdrop]

theorem wf_insertFresh {s : FrontLru K V} {k : K} (v : V) (hwf : WF s)
    (habs : k ∉ s.cache.map Prod.fst) : WF (insertFresh s k v).1 := by
  obtain ⟨h1, h2, h3, h4, h5⟩ := hwf
  by_cases hfull : s.capacity ≤ s.msize
  · rcases List.eq_nil_or_concat s.lruList with hl | ⟨ys, b, hl⟩
    rotate_left
    rw [List.concat_eq_append] at hl
    rotate_left
    · have hm : s.msize = 0 := by rw [hl] at h2; simpa using h2
      have hc : s.cache = [] := List.length_eq_zero.mp (by omega)
      rw [insertFresh_full_nil hfull hl]
      refine ⟨?_, ?_, ?_, ?_, ?_⟩
      · show s.msize = (mapEraseKey k ((k, v) :: s.cache)).length
        rw [mapEraseKey_cons_self]
        omega
      · show s.msize = ([] : List K).length
        simpa using hm
      · exact h3
      · exact List.nodup_nil
      · show (mapEraseKey k ((k, v) :: s.cache)).map Prod.fst ~ []
        rw [mapEraseKey_cons_self, hc]
        simp
    · have hmsize : s.msize = s.capacity := Nat.le_antisymm h3 hfull
      have hnd : (ys ++ [b]).Nodup := hl ▸ h4
      have hbys : b ∉ ys := by
        intro hb
        have := List.disjoint_of_nodup_append hnd hb
        simp at this
      have hperm : s.cache.map Prod.fst ~ ys ++ [b] := hl ▸ h5
      have hmem_b : b ∈ s.cache.map Prod.fst :=
        hperm.mem_iff.mpr (by simp)
      have hkb : b ≠ k := fun he => habs (he ▸ hmem_b)
      have hkys : k ∉ ys := fun hk =>
        habs (hperm.mem_iff.mpr (by simp [hk]))
      have hlent : s.msize = ys.length + 1 := by
        rw [hl] at h2; simpa using h2
      have hlenc : 0 < s.cache.length := by
        have := List.length_pos_of_mem (List.mem_map.mp hmem_b).choose_spec.1
        omega
      rw [insertFresh_full_concat hfull hl]
      have hcache : mapEraseKey b ((k, v) :: s.cache)
          = (k, v) :: mapEraseKey b s.cache :=
        mapEraseKey_cons_of_ne (by simpa using hkb.symm) s.cache
      refine ⟨?_, ?_, h3, ?_, ?_⟩
      · show s.msize = (mapEraseKey b ((k, v) :: s.cache)).length
        rw [hcache, List.length_cons, length_mapEraseKey_of_mem hmem_b]
        omega
      · show s.msize = (k :: ys).length
        simpa using hlent
      · show (k :: ys).Nodup
        exact List.nodup_cons.mpr ⟨hkys, (List.nodup_append.mp hnd).1⟩
      · show (mapEraseKey b ((k, v) :: s.cache)).map Prod.fst ~ k :: ys
        rw [hcache, List.map_cons, map_fst_mapEraseKey]
        have he : (s.cache.map Prod.fst).erase b ~ ys := by
          have h' := hperm.erase b
          rwa [List.erase_append_right _ hbys, List.erase_cons_head,
               List.append_nil] at h'
        exact he.cons k
  · rw [insertFresh_notFull hfull]
    have hk : k ∉ s.lruList := fun hk => habs (h5.mem_iff.mpr hk)
    refine ⟨?_, ?_, ?_, ?_, ?_⟩
    · simp [h1]
    · simp [h2]
    · show s.msize + 1 ≤ s.capacity
      omega
    · exact List.nodup_cons.mpr ⟨hk, h4⟩
    · rw [List.map_cons]
      exact h5.cons k

theorem front_wf_touch {s : FrontLru K V} {k : K} (hwf : WF s)
    (hk : k ∈ s.cache.map Prod.fst) :
    WF { s with lruList := moveToFront s.lruList k } := by
  obtain ⟨h1, h2, h3, h4, h5⟩ := hwf
  have hkl : k ∈ s.lruList := h5.mem_iff.mp hk
  refine ⟨h1, ?_, h3, ?_, ?_⟩
  · show s.msize = (k :: s.lruList.erase k).length
    rw [List.length_cons, List.length_erase_of_mem hkl]
    have := List.length_pos_of_mem hkl
    omega
  · show (k :: s.lruList.erase k).Nodup
    exact List.nodup_cons.mpr ⟨h4.not_mem_erase, h4.erase k⟩
  · show s.cache.map Prod.fst ~ k :: s.lruList.erase k
    exact h5.trans (List.perm_cons_erase hkl)

theorem front_wf_erase {s : FrontLru K V} (hwf : WF s) (k : K) : WF (s.erase k) := by
  obtain ⟨h1, h2, h3, h4, h5⟩ := hwf
  unfold erase
  cases hf : mapFind? k s.cache with
  | none => exact ⟨h1, h2, h3, h4, h5⟩
  | some v =>
    have hk : k ∈ s.cache.map Prod.fst := mem_of_mapFind?_eq_some hf
    have hkl : k ∈ s.lruList := h5.mem_iff.mp hk
    have hpos : 0 < s.lruList.length := List.length_pos_of_mem hkl
    refine ⟨?_, ?_, ?_, h4.erase k, ?_⟩
    · show s.msize - 1 = (mapEraseKey k s.cache).length
      rw [length_mapEraseKey_of_mem hk]
      omega
    · show s.msize - 1 = (s.lruList.erase k).length
      rw [List.length_erase_of_mem hkl]
      omega
    · show s.msize - 1 ≤ s.capacity
      omega
    · show (mapEraseKey k s.cache).map Prod.fst ~ s.lruList.erase k
      rw [map_fst_mapEraseKey]
      exact h5.erase k

theorem front_wf_update {s : FrontLru K V} (hwf : WF s) (k : K) (v : V) :
    WF (s.update k v) := by
  unfold update
  cases hf : mapFind? k s.cache with
  | none => exact wf_insertFresh v hwf (not_mem_of_mapFind?_eq_none hf)
  | some w =>
    have hk : k ∈ s.cache.map Prod.fst := mem_of_mapFind?_eq_some hf
    have h' := front_wf_touch hwf hk
    obtain ⟨h1, h2, h3, h4, h5⟩ := h'
    refine ⟨?_, h2, h3, h4, ?_⟩
    · show s.msize = (mapModify k (fun _ => v) s.cache).length
      rw [length_mapModify]
      exact hwf.sizeCache
    · show (mapModify k (fun _ => v) s.cache).map Prod.fst ~ _
      rw [map_fst_mapModify]
      exact h5

theorem front_wf_step {s : FrontLru K V} (hwf : WF s) (o : Op K V) :
    WF (step s o) := by
  cases o with
  | ins k v =>
    show WF (s.insert k v).1
    unfold insert
    cases hf : mapFind? k s.cache with
    | none => exact wf_insertFresh v hwf (not_mem_of_mapFind?_eq_none hf)
    | some w => exact hwf
  | emp k v =>
    show WF (s.emplace k v).1
    unfold emplace
    cases hf : mapFind? k s.cache with
    | none => exact wf_insertFresh v hwf (not_mem_of_mapFind?_eq_none hf)
    | some w => exact hwf
  | upd k v => exact front_wf_update hwf k v
  | del k => exact front_wf_erase hwf k
  | fnd k =>
    show WF (s.find k).1
    unfold find
    cases hf : mapFind? k s.cache with
    | none => exact hwf
    | some w => exact front_wf_touch hwf (mem_of_mapFind?_eq_some hf)
  | con k =>
    show WF (s.contains k).1
    unfold contains
    cases hf : mapFind? k s.cache with
    | none => exact hwf
    | some w => exact front_wf_touch hwf (mem_of_mapFind?_eq_some hf)

theorem capacity_insertFresh (s : FrontLru K V) (k : K) (v : V) :
    (insertFresh s k v).1.capacity = s.capacity := by
  unfold insertFresh
  dsimp only
  split
  · split <;> rfl
  · rfl

theorem front_capacity_step (s : FrontLru K V) (o : Op K V) :
    (step s o).capacity = s.capacity := by
  cases o with
  | ins k v =>
    show (s.insert k v).1.capacity = s.capacity
    unfold insert
    cases hf : mapFind? k s.cache
    · exact capacity_insertFresh s k v
    · rfl
  | emp k v =>
    show (s.emplace k v).1.capacity = s.capacity
    unfold emplace
    cases hf : mapFind? k s.cache
    · exact capacity_insertFresh s k v
    · rfl
  | upd k v =>
    show (s.update k v).capacity = s.capacity
    unfold update
    cases hf : mapFind? k s.cache
    · exact capacity_insertFresh s k v
    · rfl
  | del k =>
    show (s.erase k).capacity = s.capacity
    unfold erase
    cases hf : mapFind? k s.cache <;> rfl
  | fnd k =>
    show (s.find k).1.capacity = s.capacity
    unfold find
    cases hf : mapFind? k s.cache <;> rfl
  | con k =>
    show (s.contains k).1.capacity = s.capacity
    unfold contains
    cases hf : mapFind? k s.cache <;> rfl

theorem insertFresh_snd_true (s : FrontLru K V) (k : K) (v : V) :
    (insertFresh s k v).2 = true := by
  by_cases hfull : s.capacity ≤ s.msize
  · rcases List.eq_nil_or_concat s.lruList with hl | ⟨ys, b, hl⟩
    · rw [insertFresh_full_nil hfull hl]
    · rw [List.concat_eq_append] at hl
      rw [insertFresh_full_concat hfull hl]
  · rw [insertFresh_notFull hfull]

theorem front_insert_at_capacity {s : FrontLru K V} {k : K} {v : V} (hwf : WF s)
    (hfull : s.msize = s.capacity) (habs : k ∉ s.cache.map Prod.fst) :
    (s.insert k v).2 = true ∧ (s.insert k v).1.msize = s.capacity ∧
    ∀ ys b, s.lruList = ys ++ [b] →
      b ∉ (s.insert k v).1.cache.map Prod.fst ∧
      (s.insert k v).1.cache.map Prod.fst ~ k :: ys ∧
      (s.insert k v).1.lruList = k :: ys := by
  have hfind : mapFind? k s.cache = none := mapFind?_eq_none.mpr habs
  have hle : s.capacity ≤ s.msize := Nat.le_of_eq hfull.symm
  have heq : s.insert k v = insertFresh s k v := by
    unfold insert
    rw [hfind]
  refine ⟨by rw [heq]; exact insertFresh_snd_true s k v, ?_, ?_⟩
  · rw [heq]
    rcases List.eq_nil_or_concat s.lruList with hl | ⟨ys, b, hl⟩
    · rw [insertFresh_full_nil hle hl]
      exact hfull
    · rw [List.concat_eq_append] at hl
      rw [insertFresh_full_concat hle hl]
      exact hfull
  · intro ys b hl
    rw [heq, insertFresh_full_concat hle hl]
    dsimp only
    obtain ⟨h1, h2, h3, h4, h5⟩ := hwf
    have hperm : s.cache.map Prod.fst ~ ys ++ [b] := hl ▸ h5
    have hmem_b : b ∈ s.cache.map Prod.fst := hperm.mem_iff.mpr (by simp)
    have hbk : b ≠ k := fun heb => habs (heb ▸ hmem_b)
    have hnd2 : (ys ++ [b]).Nodup := hl ▸ h4
    have hbys : b ∉ ys := by
      intro hb
      have := List.disjoint_of_nodup_append hnd2 hb
      simp at this
    have hcache : mapEraseKey b ((k, v) :: s.cache)
        = (k, v) :: mapEraseKey b s.cache :=
      mapEraseKey_cons_of_ne (by simpa using hbk.symm) s.cache
    have hperm2 : (mapEraseKey b ((k, v) :: s.cache)).map Prod.fst
        ~ k :: ys := by
      rw [hcache, List.map_cons, map_fst_mapEraseKey]
      have h' := hperm.erase b
      rw [List.erase_append_right _ hbys, List.erase_cons_head,
          List.append_nil] at h'
      exact h'.cons k
    refine ⟨?_, hperm2, rfl⟩
    intro hmem
    rcases List.mem_cons.mp (hperm2.mem_iff.mp hmem) with h' | h'
    · exact hbk h'
    · exact hbys h'

theorem front_wf_run {s : FrontLru K V} (hwf : WF s) (ops : List (Op K V)) :
    WF (run s ops) ∧ (run s ops).capacity = s.capacity := by
  induction ops generalizing s with
  | nil => exact ⟨hwf, rfl⟩
  | cons o os ih =>
    have hc := front_capacity_step s o
    have h' := ih (front_wf_step hwf o)
    exact ⟨h'.1, h'.2.trans hc⟩


end FrontLru

namespace TtlIntru

theorem moveToTop_perm (k : K) (l : List (K × TtlEntry V)) :
    moveToTop k l ~ l := by
  unfold moveToTop
  cases hf : l.find? (fun p => decide (p.1 = k)) with
  | none => exact List.Perm.refl l
  | some p =>
    have h := perm_mapEraseKey_of_find? hf
    exact ((List.perm_append_comm :
        mapEraseKey k l ++ [p] ~ [p] ++ mapEraseKey k l).trans
      (by simpa using h.symm))


end TtlIntru

theorem find?_key_eq {k : K} {l : List (K × V)} {p : K × V}
    (h : l.find? (fun q => decide (q.1 = k)) = some p) : p.1 = k := by
  induction l with
  | nil => simp at h
  | cons q qs ih =>
    by_cases hq : q.1 = k
    · rw [List.find?_cons_of_pos _ (by simp [hq])] at h
      cases h
      exact hq
    · rw [List.find?_cons_of_neg _ (by simp [hq])] at h
      exact ih h

theorem mapFind?_append_right {k : K} {l1 l2 : List (K × V)}
    (h : mapFind? k l1 = none) :
    mapFind? k (l1 ++ l2) = mapFind? k l2 := by
  induction l1 with
  | nil => rfl
  | cons p ps ih =>
    rw [mapFind?_cons] at h
    by_cases hp : p.1 = k
    · simp [hp] at h
    · rw [List.cons_append, mapFind?_cons, if_neg hp]
      exact ih (by simpa [if_neg hp] using h)

theorem map_time_mapModify_store (k : K) (v : V)
    (l : List (K × TtlEntry V)) :
    (mapModify k (fun e0 => ⟨v, e0.timePoint⟩) l).map (fun p => p.2.timePoint)
      = l.map (fun p => p.2.timePoint) := by
  induction l with
  | nil => rfl
  | cons p ps ih =>
    by_cases h : p.1 = k <;> simp [mapModify, h, ih]

namespace TtlIntru

theorem mapFind?_moveToTop_self {k : K} {l : List (K × TtlEntry V)}
    (hnd : (l.map Prod.fst).Nodup) :
    mapFind? k (moveToTop k l) = mapFind? k l := by
  unfold moveToTop
  cases hf : l.find? (fun q => decide (q.1 = k)) with
  | none => rfl
  | some p =>
    have hk : p.1 = k := find?_key_eq hf
    have hsome : mapFind? k l = some p.2 := by
      unfold mapFind?
      rw [hf]
      rfl
    rw [hsome, mapFind?_append_right (mapFind?_mapEraseKey_self hnd),
        mapFind?_cons, if_pos hk]

end TtlIntru

/-! ## Claim theorems -/

/-- C7 counterexample: a sharded cache constructed with capacity 1 and
requested shard count 0 gets zero shards, so the sum of the shard
capacities is 0, not the capacity 1 the claim promises. -/
theorem claim7_counterexample :
    shardCount 1 0 = 0 ∧ (shardCapacities 1 0).sum = 0 ∧
    ¬ (shardCapacities 1 0).sum = 1 := by
  decide

/-- C7 (amended): for every capacity c and requested shard count s with
1 ≤ s, the constructed shard count is min(s, c), shard 0 receives
c / n + c % n while each other shard receives c / n, and the shard
capacities sum to c. -/
theorem claim7_shard_division (c s : Nat) (hs : 1 ≤ s) :
    shardCount c s = min s c ∧
    (∀ i, i < shardCount c s →
      (shardCapacities c s).getD i 0 =
        if i = 0 then c / shardCount c s + c % shardCount c s
        else c / shardCount c s) ∧
    (shardCapacities c s).sum = c := by
  refine ⟨?_, ?_, ?_⟩
  · unfold shardCount
    rcases Nat.lt_or_ge s c with h | h
    · rw [if_pos h, Nat.min_eq_left (Nat.le_of_lt h)]
    · rw [if_neg (Nat.not_lt.mpr h), Nat.min_eq_right h]
  · intro i hi
    unfold shardCapacities
    rw [List.getD_eq_getElem?_getD, List.getElem?_map, List.getElem?_range hi]
    by_cases h0 : i = 0 <;> simp [shardCapacity, h0]
  · by_cases hc : c = 0
    · subst hc
      simp [shardCapacities, shardCount]
    · have hn : 0 < shardCount c s := by
        unfold shardCount
        split <;> omega
      obtain ⟨m, hm⟩ : ∃ m, shardCount c s = m + 1 :=
        ⟨shardCount c s - 1, by omega⟩
      unfold shardCapacities
      rw [hm, List.range_succ_eq_map, List.map_cons, List.map_map,
          List.sum_cons]
      have hconst : (List.range m).map (shardCapacity c (m + 1) ∘ Nat.succ)
          = List.replicate m (c / (m + 1)) := by
        rw [List.eq_replicate_iff]
        refine ⟨by simp, ?_⟩
        intro b hb
        rcases List.mem_map.mp hb with ⟨i, _, rfl⟩
        simp [shardCapacity, Function.comp]
      rw [hconst, List.sum_replicate, smul_eq_mul]
      have h0 : shardCapacity c (m + 1) 0 = c / (m + 1) + c % (m + 1) := by
        simp [shardCapacity]
      rw [h0]
      have hdm := Nat.div_add_mod c (m + 1)
      have hmul : (m + 1) * (c / (m + 1)) = m * (c / (m + 1)) + c / (m + 1) := by
        ring
      omega

/-- C7 witness: capacity 5 split over requested 2 shards gives 2
shards whose capacities sum to 5, and a first shard of capacity 3. -/
theorem claim7_witness :
    (1:Nat) ≤ 2 ∧ shardCount 5 2 = min 2 5 ∧
    (shardCapacities 5 2).getD 0 0 = 5 / shardCount 5 2 + 5 % shardCount 5 2 ∧
    (shardCapacities 5 2).sum = 5 :=
  ⟨by decide, (claim7_shard_division 5 2 (by decide)).1,
   by simpa using (claim7_shard_division 5 2 (by decide)).2.1 0 (by decide),
   (claim7_shard_division 5 2 (by decide)).2.2⟩

/-- C9: reserve(n) on the head-eviction LRU cache changes only the
configured capacity — contents, recency order and size are untouched —
so a shrinking reserve leaves size() above capacity(); a later insert
of an absent key into such an over-full cache evicts exactly the list
head and leaves size() unchanged. -/
theorem claim9_reserve_frame :
    (∀ (s : StdLru Nat Nat) (n : Nat),
      (s.reserve n).capacity = n ∧ (s.reserve n).msize = s.msize ∧
      (s.reserve n).cache = s.cache ∧ (s.reserve n).lruList = s.lruList) ∧
    (∀ (s : StdLru Nat Nat) (n : Nat), n < s.msize →
      (s.reserve n).capacity < (s.reserve n).msize) ∧
    (∀ (s : StdLru Nat Nat) (k v hd : Nat) (t : List Nat),
      s.capacity ≤ s.msize → s.lruList = hd :: t →
      mapFind? k s.cache = none →
      (s.insert k v).2 = true ∧
      (s.insert k v).1.msize = s.msize ∧
      (s.insert k v).1.cache = (k, v) :: mapEraseKey hd s.cache ∧
      (s.insert k v).1.lruList = t ++ [k]) := by
  refine ⟨fun s n => ⟨rfl, rfl, rfl, rfl⟩, fun s n h => h, ?_⟩
  intro s k v hd t hfull hl hnone
  have heq : s.insert k v = (StdLru.insertToCache s k v, true) := by
    unfold StdLru.insert
    rw [hnone]
  rw [heq, StdLru.insertToCache_full hfull hl]
  exact ⟨rfl, rfl, rfl, rfl⟩

/-- C9 witness: a cache of capacity 2 holding the two keys 0 and 1,
shrunk by reserve(1), reports size 2 above capacity 1, and inserting
the absent key 7 evicts the head key 0 while size stays 2. -/
theorem claim9_witness :
    ((1:Nat) < (StdLru.mk 2 2 [(1,1),(0,0)] [0,1]).msize ∧
      ((StdLru.mk 2 2 [(1,1),(0,0)] [0,1]).reserve 1).capacity <
      ((StdLru.mk 2 2 [(1,1),(0,0)] [0,1]).reserve 1).msize) ∧
    (((StdLru.mk 1 2 [(1,1),(0,0)] [0,1]).insert 7 7).1.msize = 2 ∧
      ((StdLru.mk 1 2 [(1,1),(0,0)] [0,1]).insert 7 7).1.lruList
        = [1] ++ [7]) :=
  ⟨⟨by decide,
    claim9_reserve_frame.2.1 (StdLru.mk 2 2 [(1,1),(0,0)] [0,1]) 1
      (by decide)⟩,
   (claim9_reserve_frame.2.2 (StdLru.mk 1 2 [(1,1),(0,0)] [0,1])
      7 7 0 [1] (by decide) (by decide) (by decide)).2.1,
   (claim9_reserve_frame.2.2 (StdLru.mk 1 2 [(1,1),(0,0)] [0,1])
      7 7 0 [1] (by decide) (by decide) (by decide)).2.2.2⟩

/-- C10: in the front-emplace/back-pop variant with capacity 0,
insert and emplace of an absent key on the empty cache report true, yet
the new entry is popped back out as its own eviction victim: the state
is the empty cache again, size stays 0 and the key is absent. -/
theorem claim10_zero_capacity (k v : Nat) :
    (((FrontLru.init Nat Nat 0).insert k v).2 = true ∧
      ((FrontLru.init Nat Nat 0).insert k v).1 = FrontLru.init Nat Nat 0) ∧
    (((FrontLru.init Nat Nat 0).emplace k v).2 = true ∧
      ((FrontLru.init Nat Nat 0).emplace k v).1 = FrontLru.init Nat Nat 0) ∧
    ((FrontLru.init Nat Nat 0).insert k v).1.msize = 0 ∧
    ((((FrontLru.init Nat Nat 0).insert k v).1.find k).2 = none ∧
      (((FrontLru.init Nat Nat 0).insert k v).1.contains k).2 = false) := by
  have hfresh : FrontLru.insertFresh (FrontLru.init Nat Nat 0) k v
      = (FrontLru.init Nat Nat 0, true) := by
    rw [FrontLru.insertFresh_full_nil (Nat.le_refl 0) rfl]
    simp [FrontLru.init, mapEraseKey_cons_self]
  have hins : (FrontLru.init Nat Nat 0).insert k v
      = (FrontLru.init Nat Nat 0, true) := by
    unfold FrontLru.insert
    rw [show mapFind? k (FrontLru.init Nat Nat 0).cache = none from rfl, hfresh]
  have hemp : (FrontLru.init Nat Nat 0).emplace k v
      = (FrontLru.init Nat Nat 0, true) := by
    unfold FrontLru.emplace
    rw [show mapFind? k (FrontLru.init Nat Nat 0).cache = none from rfl, hfresh]
  refine ⟨⟨by rw [hins], by rw [hins]⟩, ⟨by rw [hemp], by rw [hemp]⟩,
    by rw [hins]; rfl, by rw [hins]; rfl, by rw [hins]; rfl⟩

/-- C8: erase(k) on an absent key is a no-op on the entire state;
erase(k) on a present key removes the entry from the hash index and
the recency list, decrements size() by exactly 1, and makes subsequent
find(k) and contains(k) report absent — for the head-eviction LRU
cache and the intrusive-backend TTL cache. -/
theorem claim8_erase (s : StdLru Nat Nat) (t : TtlIntru Nat Nat)
    (k now : Nat) (hwf : StdLru.WF s)
    (hnd : (t.nodes.map Prod.fst).Nodup) :
    (mapFind? k s.cache = none → s.erase k = s) ∧
    (mapFind? k s.cache ≠ none →
      (s.erase k).msize = s.msize - 1 ∧ 1 ≤ s.msize ∧
      mapFind? k (s.erase k).cache = none ∧
      k ∉ (s.erase k).lruList ∧
      ((s.erase k).find k).2 = none ∧
      ((s.erase k).contains k).2 = false) ∧
    (mapFind? k t.nodes = none → t.erase k = t) ∧
    (mapFind? k t.nodes ≠ none →
      (t.erase k).size = t.size - 1 ∧ 1 ≤ t.size ∧
      mapFind? k (t.erase k).nodes = none ∧
      ((t.erase k).find k now).2 = none ∧
      ((t.erase k).contains k now).2 = false) := by
  have hndstd : (s.cache.map Prod.fst).Nodup :=
    (hwf.permKeys.nodup_iff).mpr hwf.nodupList
  refine ⟨?_, ?_, ?_, ?_⟩
  · intro h
    unfold StdLru.erase
    rw [h]
  · intro h
    obtain ⟨v, hv⟩ := Option.ne_none_iff_exists'.mp h
    have hk : k ∈ s.cache.map Prod.fst := mem_of_mapFind?_eq_some hv
    have hkl : k ∈ s.lruList := hwf.permKeys.mem_iff.mp hk
    have hpos : 0 < s.cache.length :=
      List.length_pos_of_mem (List.mem_map.mp hk).choose_spec.1
    have he : s.erase k =
        { s with cache := mapEraseKey k s.cache,
                 lruList := s.lruList.erase k, msize := s.msize - 1 } := by
      unfold StdLru.erase
      rw [hv]
    have hnone : mapFind? k (mapEraseKey k s.cache) = none :=
      mapFind?_mapEraseKey_self hndstd
    refine ⟨by rw [he], ?_, ?_, ?_, ?_, ?_⟩
    · have := hwf.sizeCache
      omega
    · rw [he]
      exact hnone
    · rw [he]
      exact hwf.nodupList.not_mem_erase
    · rw [he]
      unfold StdLru.find
      dsimp only
      rw [hnone]
    · rw [he]
      unfold StdLru.contains
      dsimp only
      rw [hnone]
  · intro h
    unfold TtlIntru.erase
    rw [h]
  · intro h
    obtain ⟨e, hv⟩ := Option.ne_none_iff_exists'.mp h
    have hk : k ∈ t.nodes.map Prod.fst := mem_of_mapFind?_eq_some hv
    have hpos : 0 < t.nodes.length :=
      List.length_pos_of_mem (List.mem_map.mp hk).choose_spec.1
    have he : t.erase k = { t with nodes := mapEraseKey k t.nodes } := by
      unfold TtlIntru.erase
      rw [hv]
    have hnone : mapFind? k (mapEraseKey k t.nodes) = none :=
      mapFind?_mapEraseKey_self hnd
    refine ⟨?_, ?_, ?_, ?_, ?_⟩
    · rw [he]
      unfold TtlIntru.size
      dsimp only
      rw [length_mapEraseKey_of_mem hk]
    · unfold TtlIntru.size
      omega
    · rw [he]
      exact hnone
    · rw [he]
      unfold TtlIntru.find
      dsimp only
      rw [hnone]
    · rw [he]
      unfold TtlIntru.contains
      dsimp only
      rw [hnone]

/-- C8 witness: erasing the present key 3 from a one-element LRU cache
and a one-element TTL cache empties both and makes contains report
absent; erasing the absent key 4 changes nothing. -/
theorem claim8_witness :
    ((StdLru.mk 2 1 [(3,3)] [3]).erase 3).msize = 1 - 1 ∧
    (((StdLru.mk 2 1 [(3,3)] [3]).erase 3).contains 3).2 = false ∧
    ((TtlIntru.mk 2 900 [(3, ⟨3, 0⟩)]).erase 3).size =
      (TtlIntru.mk 2 900 [(3, ⟨3, 0⟩)]).size - 1 ∧
    (StdLru.mk 2 1 [(3,3)] [3]).erase 4 = StdLru.mk 2 1 [(3,3)] [3] :=
  ⟨((claim8_erase (StdLru.mk 2 1 [(3,3)] [3])
      (TtlIntru.mk 2 900 [(3, ⟨3, 0⟩)]) 3 0
      ⟨by decide, by decide, by decide, by decide, by decide⟩
      (by decide)).2.1 (by decide)).1,
   ((claim8_erase (StdLru.mk 2 1 [(3,3)] [3])
      (TtlIntru.mk 2 900 [(3, ⟨3, 0⟩)]) 3 0
      ⟨by decide, by decide, by decide, by decide, by decide⟩
      (by decide)).2.1 (by decide)).2.2.2.2.2,
   ((claim8_erase (StdLru.mk 2 1 [(3,3)] [3])
      (TtlIntru.mk 2 900 [(3, ⟨3, 0⟩)]) 3 0
      ⟨by decide, by decide, by decide, by decide, by decide⟩
      (by decide)).2.2.2 (by decide)).1,
   (claim8_erase (StdLru.mk 2 1 [(3,3)] [3])
      (TtlIntru.mk 2 900 [(3, ⟨3, 0⟩)]) 4 0
      ⟨by decide, by decide, by decide, by decide, by decide⟩
      (by decide)).1 (by decide)⟩

/-- C5: in the TTL cache (intrusive backend, the one ttl_cache.h
includes) an entry is expired exactly when now() - touched_at is
strictly greater than the TTL — age equal to the TTL is not expired,
so find still returns the value there; find on a present-but-expired
key erases the entry (size drops by 1) and returns none; find on a
present-and-fresh key returns the value, moves the node to the
most-recently-used end and leaves the contents unchanged. -/
theorem claim5_ttl_expiry (s : TtlIntru Nat Nat) (k now : Nat)
    (e : TtlEntry Nat) (hf : mapFind? k s.nodes = some e) :
    (isExpired now s.ttl e = true ↔ s.ttl < now - e.timePoint) ∧
    (now - e.timePoint = s.ttl → (s.find k now).2 = some e.value) ∧
    (s.ttl < now - e.timePoint →
      (s.find k now).2 = none ∧
      (s.find k now).1.size = s.size - 1 ∧ 1 ≤ s.size) ∧
    (¬ s.ttl < now - e.timePoint →
      (s.find k now).2 = some e.value ∧
      (s.find k now).1.nodes ~ s.nodes ∧
      (s.find k now).1.size = s.size ∧
      (s.find k now).1.nodes.getLast? = some (k, e)) := by
  obtain ⟨p, hp, hpe⟩ := Option.map_eq_some'.mp
    (show (s.nodes.find? (fun q => decide (q.1 = k))).map Prod.snd = some e
      from hf)
  have hpk : p = ((k, e) : Nat × TtlEntry Nat) :=
    Prod.ext (find?_key_eq hp) hpe
  rw [hpk] at hp
  have hmove : TtlIntru.moveToTop k s.nodes
      = mapEraseKey k s.nodes ++ [(k, e)] := by
    unfold TtlIntru.moveToTop
    rw [hp]
  have hk : k ∈ s.nodes.map Prod.fst := mem_of_mapFind?_eq_some hf
  have hpos : 0 < s.nodes.length :=
    List.length_pos_of_mem (List.mem_map.mp hk).choose_spec.1
  have hfresh : ¬ s.ttl < now - e.timePoint →
      s.find k now
        = ({ s with nodes := TtlIntru.moveToTop k s.nodes },
           some e.value) := by
    intro hn
    have hexp : isExpired now s.ttl e = false := by
      simp [isExpired]
      omega
    unfold TtlIntru.find
    rw [hf]
    dsimp only
    rw [if_neg (by simp [hexp])]
  refine ⟨by simp [isExpired], ?_, ?_, ?_⟩
  · intro heq
    rw [hfresh (by omega)]
  · intro hlt
    have hexp : isExpired now s.ttl e = true := by
      simp [isExpired]
      omega
    have he : s.find k now = ({ s with nodes := mapEraseKey k s.nodes },
        none) := by
      unfold TtlIntru.find
      rw [hf]
      dsimp only
      rw [if_pos hexp]
    refine ⟨by rw [he], ?_, ?_⟩
    · rw [he]
      unfold TtlIntru.size
      dsimp only
      rw [length_mapEraseKey_of_mem hk]
    · unfold TtlIntru.size
      omega
  · intro hnlt
    refine ⟨by rw [hfresh hnlt], ?_, ?_, ?_⟩
    · rw [hfresh hnlt]
      exact TtlIntru.moveToTop_perm k s.nodes
    · rw [hfresh hnlt]
      unfold TtlIntru.size
      dsimp only
      exact (TtlIntru.moveToTop_perm k s.nodes).length_eq
    · rw [hfresh hnlt]
      dsimp only
      rw [hmove]
      exact List.getLast?_concat _

/-- C5 witness: key 5 stamped at 100 with TTL 900 is still found at
time 1000 (age exactly the TTL), but at time 1001 find erases it and
reports absent with the size dropping from 1 to 0. -/
theorem claim5_witness :
    ((TtlIntru.mk 10 900 [(5, ⟨7, 100⟩)]).find 5 1000).2 = some 7 ∧
    ((TtlIntru.mk 10 900 [(5, ⟨7, 100⟩)]).find 5 1001).2 = none ∧
    ((TtlIntru.mk 10 900 [(5, ⟨7, 100⟩)]).find 5 1001).1.size
      = (TtlIntru.mk 10 900 [(5, ⟨7, 100⟩)]).size - 1 :=
  ⟨(claim5_ttl_expiry (TtlIntru.mk 10 900 [(5, ⟨7, 100⟩)]) 5 1000
      ⟨7, 100⟩ (by decide)).2.1 (by decide),
   ((claim5_ttl_expiry (TtlIntru.mk 10 900 [(5, ⟨7, 100⟩)]) 5 1001
      ⟨7, 100⟩ (by decide)).2.2.1 (by decide)).1,
   ((claim5_ttl_expiry (TtlIntru.mk 10 900 [(5, ⟨7, 100⟩)]) 5 1001
      ⟨7, 100⟩ (by decide)).2.2.1 (by decide)).2.1⟩

/-- C3 counterexample: in the intrusive backend (the one included by
ttl_cache.h) a contains hit at time 5 on a node stamped at time 0
returns true but leaves the node's touched_at at 0 — the timestamp is
not refreshed on the touch, contradicting the claim. -/
theorem claim3_counterexample :
    (((TtlIntru.init Nat Nat 900 10).insert 0 7 0).1.nodes
      = [(0, ⟨7, 0⟩)]) ∧
    ((((TtlIntru.init Nat Nat 900 10).insert 0 7 0).1.contains 0 5).2
      = true) ∧
    ((((TtlIntru.init Nat Nat 900 10).insert 0 7 0).1.contains 0 5).1.nodes
      = [(0, ⟨7, 0⟩)]) ∧
    ¬ ((((TtlIntru.init Nat Nat 900 10).insert 0 7 0).1.contains 0 5).1.nodes
      = [(0, ⟨7, 5⟩)]) := by
  decide

/-- C3 (amended): in the std backend every touch — a contains hit, a
find hit, an update of a present key — goes through move_to_top, which
restamps touched_at with now(), and a node is stamped with now() at
creation; in the intrusive backend move_to_top only re-links the node,
so contains, find and update never change any stored timestamp and the
expiration clock keeps running from the creation stamp. -/
theorem claim3_touch_refresh
    (s : TtlStd Nat Nat) (t : TtlIntru Nat Nat) (k v now : Nat)
    (e e' : TtlEntry Nat)
    (hs : mapFind? k s.tbl = some e)
    (ht : mapFind? k t.nodes = some e') :
    (isExpired now s.ttl e = false →
      mapFind? k ((s.contains k now).1.tbl) = some ⟨e.value, now⟩ ∧
      mapFind? k ((s.find k now).1.tbl) = some ⟨e.value, now⟩) ∧
    (mapFind? k ((s.update k v now).tbl) = some ⟨v, now⟩) ∧
    (∀ s2 : TtlStd Nat Nat, mapFind? k s2.tbl = none →
      s2.tbl.length < s2.capacity →
      mapFind? k ((s2.insert k v now).1.tbl) = some ⟨v, now⟩) ∧
    ((t.contains k now).1.nodes ~ t.nodes) ∧
    (isExpired now t.ttl e' = false → (t.find k now).1.nodes ~ t.nodes) ∧
    ((t.update k v now).nodes.map (fun p => p.2.timePoint)
      ~ t.nodes.map (fun p => p.2.timePoint)) := by
  refine ⟨?_, ?_, ?_, ?_, ?_, ?_⟩
  · intro hexp
    constructor
    · unfold TtlStd.contains
      rw [hs]
      dsimp only
      rw [if_neg (by simp [hexp])]
      unfold TtlStd.touch
      dsimp only
      rw [mapFind?_mapModify_self, hs]
      rfl
    · unfold TtlStd.find
      rw [hs]
      dsimp only
      rw [if_neg (by simp [hexp])]
      unfold TtlStd.touch
      dsimp only
      rw [mapFind?_mapModify_self, hs]
      rfl
  · unfold TtlStd.update
    rw [hs]
    dsimp only
    unfold TtlStd.touch
    dsimp only
    rw [mapFind?_mapModify_self, mapFind?_mapModify_self, hs]
    rfl
  · intro s2 habs hlen
    unfold TtlStd.insert
    rw [habs]
    dsimp only
    unfold TtlStd.insertBase
    rw [if_neg (by omega)]
    dsimp only
    rw [mapFind?_cons]
    simp
  · unfold TtlIntru.contains
    rw [ht]
    dsimp only
    by_cases hexp : isExpired now t.ttl e' = true
    · rw [if_pos hexp]
    · rw [if_neg hexp]
      exact TtlIntru.moveToTop_perm k t.nodes
  · intro hexp
    unfold TtlIntru.find
    rw [ht]
    dsimp only
    rw [if_neg (by simp [hexp])]
    exact TtlIntru.moveToTop_perm k t.nodes
  · unfold TtlIntru.update
    rw [ht]
    dsimp only
    have h1 : TtlIntru.moveToTop k
        (mapModify k (fun e0 => ⟨v, e0.timePoint⟩) t.nodes)
        ~ mapModify k (fun e0 => ⟨v, e0.timePoint⟩) t.nodes :=
      TtlIntru.moveToTop_perm _ _
    have h2 := h1.map (fun p => p.2.timePoint)
    rw [map_time_mapModify_store] at h2
    exact h2

/-- C3 witness: a std-backend cache with key 0 stamped at 0, touched by
contains at time 5, restamps the entry to 5 and update restamps to 5;
the intrusive-backend cache keeps its node list a permutation of the
original, timestamps included. -/
theorem claim3_witness :
    mapFind? 0 (((TtlStd.mk 10 900 [(0, ⟨7, 0⟩)] [0]).contains 0 5).1.tbl)
      = some ⟨7, 5⟩ ∧
    mapFind? 0 (((TtlStd.mk 10 900 [(0, ⟨7, 0⟩)] [0]).update 0 9 5).tbl)
      = some ⟨9, 5⟩ ∧
    ((TtlIntru.mk 10 900 [(0, ⟨7, 0⟩)]).contains 0 5).1.nodes
      ~ [(0, ⟨7, 0⟩)] :=
  ⟨((claim3_touch_refresh (TtlStd.mk 10 900 [(0, ⟨7, 0⟩)] [0])
      (TtlIntru.mk 10 900 [(0, ⟨7, 0⟩)]) 0 9 5 ⟨7, 0⟩ ⟨7, 0⟩
      (by decide) (by decide)).1 (by decide)).1,
   (claim3_touch_refresh (TtlStd.mk 10 900 [(0, ⟨7, 0⟩)] [0])
      (TtlIntru.mk 10 900 [(0, ⟨7, 0⟩)]) 0 9 5 ⟨7, 0⟩ ⟨7, 0⟩
      (by decide) (by decide)).2.1,
   (claim3_touch_refresh (TtlStd.mk 10 900 [(0, ⟨7, 0⟩)] [0])
      (TtlIntru.mk 10 900 [(0, ⟨7, 0⟩)]) 0 9 5 ⟨7, 0⟩ ⟨7, 0⟩
      (by decide) (by decide)).2.2.2.1⟩

/-- C4 counterexample: in the intrusive backend, insert on the
present-but-expired key 0 (stamped 0, TTL 900, now 1000) returns true
and overwrites the value, but the slot keeps its old timestamp 0, so
the entry is still expired — find at the same instant erases it and
reports absent instead of finding a fresh entry. -/
theorem claim4_counterexample :
    ((((TtlIntru.init Nat Nat 900 10).insert 0 7 0).1.insert 0 8 1000).2
      = true) ∧
    ((((TtlIntru.init Nat Nat 900 10).insert 0 7 0).1.insert 0 8 1000).1.nodes
      = [(0, ⟨8, 0⟩)]) ∧
    (((((TtlIntru.init Nat Nat 900 10).insert 0 7 0).1.insert
        0 8 1000).1.find 0 1000).2 = none) ∧
    (((((TtlIntru.init Nat Nat 900 10).insert 0 7 0).1.insert
        0 8 1000).1.find 0 1000).1.nodes = []) := by
  decide

/-- C4 (amended): insert/emplace on a present-but-expired key
overwrites the stored value and returns true in both backends; in the
std backend the entry is restamped with now() by move_to_top and is
fresh again, while in the intrusive backend the reused slot keeps its
old touched_at and remains expired. -/
theorem claim4_insert_expired
    (s : TtlStd Nat Nat) (t : TtlIntru Nat Nat) (k v now : Nat)
    (e e' : TtlEntry Nat)
    (hs : mapFind? k s.tbl = some e) (hsx : isExpired now s.ttl e = true)
    (ht : mapFind? k t.nodes = some e')
    (htx : isExpired now t.ttl e' = true)
    (hnd : (t.nodes.map Prod.fst).Nodup) :
    ((s.insert k v now).2 = true ∧
      mapFind? k ((s.insert k v now).1.tbl) = some ⟨v, now⟩ ∧
      isExpired now s.ttl (⟨v, now⟩ : TtlEntry Nat) = false) ∧
    ((t.insert k v now).2 = true ∧
      mapFind? k ((t.insert k v now).1.nodes) = some ⟨v, e'.timePoint⟩ ∧
      isExpired now t.ttl (⟨v, e'.timePoint⟩ : TtlEntry Nat) = true) := by
  constructor
  · unfold TtlStd.insert
    rw [hs]
    dsimp only
    rw [if_pos hsx]
    refine ⟨rfl, ?_, by simp [isExpired]⟩
    unfold TtlStd.touch
    dsimp only
    rw [mapFind?_mapModify_self, mapFind?_mapModify_self, hs]
    rfl
  · unfold TtlIntru.insert
    rw [ht]
    dsimp only
    rw [if_pos htx]
    refine ⟨rfl, ?_, ?_⟩
    · dsimp only
      rw [TtlIntru.mapFind?_moveToTop_self
            (by rw [map_fst_mapModify]; exact hnd),
          mapFind?_mapModify_self, ht]
      rfl
    · exact htx

/-- C4 witness: key 0 stamped at time 0 with TTL 900; insert at time
1000 returns true in both backends, yields a fresh entry (9, 1000) in
the std backend and a still-stale entry (9, 0) in the intrusive one. -/
theorem claim4_witness :
    (((TtlStd.mk 10 900 [(0, ⟨7, 0⟩)] [0]).insert 0 9 1000).2 = true ∧
      mapFind? 0 (((TtlStd.mk 10 900 [(0, ⟨7, 0⟩)] [0]).insert
        0 9 1000).1.tbl) = some ⟨9, 1000⟩) ∧
    (((TtlIntru.mk 10 900 [(0, ⟨7, 0⟩)]).insert 0 9 1000).2 = true ∧
      mapFind? 0 (((TtlIntru.mk 10 900 [(0, ⟨7, 0⟩)]).insert
        0 9 1000).1.nodes) = some ⟨9, 0⟩) :=
  ⟨⟨(claim4_insert_expired (TtlStd.mk 10 900 [(0, ⟨7, 0⟩)] [0])
      (TtlIntru.mk 10 900 [(0, ⟨7, 0⟩)]) 0 9 1000 ⟨7, 0⟩ ⟨7, 0⟩
      (by decide) (by decide) (by decide) (by decide) (by decide)).1.1,
    (claim4_insert_expired (TtlStd.mk 10 900 [(0, ⟨7, 0⟩)] [0])
      (TtlIntru.mk 10 900 [(0, ⟨7, 0⟩)]) 0 9 1000 ⟨7, 0⟩ ⟨7, 0⟩
      (by decide) (by decide) (by decide) (by decide) (by decide)).1.2.1⟩,
   ⟨(claim4_insert_expired (TtlStd.mk 10 900 [(0, ⟨7, 0⟩)] [0])
      (TtlIntru.mk 10 900 [(0, ⟨7, 0⟩)]) 0 9 1000 ⟨7, 0⟩ ⟨7, 0⟩
      (by decide) (by decide) (by decide) (by decide) (by decide)).2.1,
    (claim4_insert_expired (TtlStd.mk 10 900 [(0, ⟨7, 0⟩)] [0])
      (TtlIntru.mk 10 900 [(0, ⟨7, 0⟩)]) 0 9 1000 ⟨7, 0⟩ ⟨7, 0⟩
      (by decide) (by decide) (by decide) (by decide) (by decide)).2.2.1⟩⟩

/-- C6 counterexample: in the front-emplace/back-pop variant, insert
of the already-present key 0 into a full capacity-2 cache returns
false but does not touch the recency order — key 0 stays at the LRU
end (the list back, not the MRU front the claim requires), so the next
insert evicts key 0 itself. -/
theorem claim6_counterexample :
    (((FrontLru.init Nat Nat 2).insert 0 10).1.insert 1 11).1.insert 0 12
      = ((((FrontLru.init Nat Nat 2).insert 0 10).1.insert 1 11).1, false) ∧
    ((((FrontLru.init Nat Nat 2).insert 0 10).1.insert 1 11).1.lruList
      = [1, 0]) ∧
    ¬ (((((FrontLru.init Nat Nat 2).insert 0 10).1.insert 1 11).1.insert
        0 12).1.lruList.head? = some 0) ∧
    (((((((FrontLru.init Nat Nat 2).insert 0 10).1.insert 1 11).1.insert
        0 12).1.insert 2 13).1.contains 0).2 = false) := by
  decide

/-- C6 (amended): in the head-eviction variant, insert/emplace of a
present key returns false, leaves the hash table (hence the stored
value) and size unchanged and splices the key to the
most-recently-used end; in the front-emplace/back-pop variant they
return false and leave the entire state unchanged, with no touch.  In
both variants insert of an absent key returns true, and when there is
room the value is stored for the key. -/
theorem claim6_insert_present
    (s : StdLru Nat Nat) (f : FrontLru Nat Nat) (k v w : Nat)
    (hs : mapFind? k s.cache = some w) (hf : mapFind? k f.cache = some w) :
    ((s.insert k v).2 = false ∧ (s.emplace k v).2 = false ∧
      (s.insert k v).1.cache = s.cache ∧
      (s.insert k v).1.msize = s.msize ∧
      (s.insert k v).1.lruList = s.lruList.erase k ++ [k] ∧
      (s.emplace k v).1.cache = s.cache ∧
      (s.emplace k v).1.lruList = s.lruList.erase k ++ [k]) ∧
    (f.insert k v = (f, false) ∧ f.emplace k v = (f, false)) ∧
    (∀ (s2 : StdLru Nat Nat) (f2 : FrontLru Nat Nat),
      mapFind? k s2.cache = none → mapFind? k f2.cache = none →
      s2.msize < s2.capacity → f2.msize < f2.capacity →
      (s2.insert k v).2 = true ∧
      mapFind? k (s2.insert k v).1.cache = some v ∧
      (f2.insert k v).2 = true ∧
      mapFind? k (f2.insert k v).1.cache = some v) := by
  have he : s.insert k v
      = ({ s with lruList := StdLru.moveToTop s.lruList k }, false) := by
    unfold StdLru.insert
    rw [hs]
  have he2 : s.emplace k v
      = ({ s with lruList := StdLru.moveToTop s.lruList k }, false) := by
    unfold StdLru.emplace
    rw [hs]
  refine ⟨⟨by rw [he], by rw [he2], by rw [he], by rw [he],
    by rw [he]; rfl, by rw [he2], by rw [he2]; rfl⟩, ⟨?_, ?_⟩, ?_⟩
  · unfold FrontLru.insert
    rw [hf]
  · unfold FrontLru.emplace
    rw [hf]
  · intro s2 f2 h1 h2 hr1 hr2
    have hes : s2.insert k v = (StdLru.insertToCache s2 k v, true) := by
      unfold StdLru.insert
      rw [h1]
    have hef : f2.insert k v = FrontLru.insertFresh f2 k v := by
      unfold FrontLru.insert
      rw [h2]
    refine ⟨by rw [hes], ?_, ?_, ?_⟩
    · rw [hes, StdLru.insertToCache_notFull (by omega)]
      dsimp only
      rw [mapFind?_cons]
      simp
    · rw [hef]
      exact FrontLru.insertFresh_snd_true f2 k v
    · rw [hef, FrontLru.insertFresh_notFull (by omega)]
      dsimp only
      rw [mapFind?_cons]
      simp

/-- C6 witness: with keys 0 and 1 present in both variants, insert of
key 0 returns false; the head-eviction variant moves 0 to the MRU end
while the front variant leaves the state untouched; inserting the
absent key 5 into empty caches of capacity 3 returns true and stores
the value. -/
theorem claim6_witness :
    ((StdLru.mk 3 2 [(1,11),(0,10)] [0,1]).insert 0 12).2 = false ∧
    ((StdLru.mk 3 2 [(1,11),(0,10)] [0,1]).insert 0 12).1.lruList
      = ([0,1] : List Nat).erase 0 ++ [0] ∧
    (FrontLru.mk 3 2 [(1,11),(0,10)] [1,0]).insert 0 12
      = (FrontLru.mk 3 2 [(1,11),(0,10)] [1,0], false) ∧
    ((StdLru.init Nat Nat 3).insert 0 12).2 = true ∧
    ((FrontLru.init Nat Nat 3).insert 0 12).2 = true :=
  ⟨(claim6_insert_present (StdLru.mk 3 2 [(1,11),(0,10)] [0,1])
      (FrontLru.mk 3 2 [(1,11),(0,10)] [1,0]) 0 12 10
      (by decide) (by decide)).1.1,
   (claim6_insert_present (StdLru.mk 3 2 [(1,11),(0,10)] [0,1])
      (FrontLru.mk 3 2 [(1,11),(0,10)] [1,0]) 0 12 10
      (by decide) (by decide)).1.2.2.2.2.1,
   (claim6_insert_present (StdLru.mk 3 2 [(1,11),(0,10)] [0,1])
      (FrontLru.mk 3 2 [(1,11),(0,10)] [1,0]) 0 12 10
      (by decide) (by decide)).2.1.1,
   ((claim6_insert_present (StdLru.mk 3 2 [(1,11),(0,10)] [0,1])
      (FrontLru.mk 3 2 [(1,11),(0,10)] [1,0]) 0 12 10
      (by decide) (by decide)).2.2 (StdLru.init Nat Nat 3)
      (FrontLru.init Nat Nat 3) (by decide) (by decide)
      (by decide) (by decide)).1,
   ((claim6_insert_present (StdLru.mk 3 2 [(1,11),(0,10)] [0,1])
      (FrontLru.mk 3 2 [(1,11),(0,10)] [1,0]) 0 12 10
      (by decide) (by decide)).2.2 (StdLru.init Nat Nat 3)
      (FrontLru.init Nat Nat 3) (by decide) (by decide)
      (by decide) (by decide)).2.2.1⟩

/-- C1: for every capacity c > 0 and every sequence of
insert/emplace/update/erase/find/contains operations, the reached
state satisfies size() ≤ capacity with size equal to both the number
of hash-table entries and the recency-list length; and once size() =
capacity, inserting an absent key returns true, keeps size() =
capacity, and evicts exactly the current LRU element (list head in the
head-eviction variant, list back in the front variant): it disappears
from the keys, which become the old keys with the victim replaced by
the new key.  Proved for both LRU variants in the repository. -/
theorem claim1_capacity_invariant (c : Nat) (ops : List (Op Nat Nat))
    (hc : 0 < c) :
    (∀ s : StdLru Nat Nat, s = StdLru.run (StdLru.init Nat Nat c) ops →
      (s.msize ≤ c ∧ s.msize = s.cache.length ∧
        s.msize = s.lruList.length) ∧
      ∀ k v : Nat, s.msize = c → k ∉ s.cache.map Prod.fst →
        (s.insert k v).2 = true ∧ (s.insert k v).1.msize = c ∧
        ∀ hd t, s.lruList = hd :: t →
          hd ∉ (s.insert k v).1.cache.map Prod.fst ∧
          (s.insert k v).1.cache.map Prod.fst ~ k :: t ∧
          (s.insert k v).1.lruList = t ++ [k]) ∧
    (∀ f : FrontLru Nat Nat, f = FrontLru.run (FrontLru.init Nat Nat c) ops →
      (f.msize ≤ c ∧ f.msize = f.cache.length ∧
        f.msize = f.lruList.length) ∧
      ∀ k v : Nat, f.msize = c → k ∉ f.cache.map Prod.fst →
        (f.insert k v).2 = true ∧ (f.insert k v).1.msize = c ∧
        ∀ ys b, f.lruList = ys ++ [b] →
          b ∉ (f.insert k v).1.cache.map Prod.fst ∧
          (f.insert k v).1.cache.map Prod.fst ~ k :: ys ∧
          (f.insert k v).1.lruList = k :: ys) := by
  constructor
  · intro s hseq
    have hrun := StdLru.wf_run (StdLru.wf_init Nat Nat c) hc ops
    have hwf : StdLru.WF s := hseq ▸ hrun.1
    have hcap : s.capacity = c := by rw [hseq]; exact hrun.2
    refine ⟨⟨hcap ▸ hwf.sizeLe, hwf.sizeCache, hwf.sizeList⟩, ?_⟩
    intro k v hsize habs
    have h := StdLru.insert_at_capacity (v := v) hwf
      (hsize.trans hcap.symm) habs
    rw [hcap] at h
    exact h
  · intro f hseq
    have hrun := FrontLru.front_wf_run (FrontLru.front_wf_init Nat Nat c) ops
    have hwf : FrontLru.WF f := hseq ▸ hrun.1
    have hcap : f.capacity = c := by rw [hseq]; exact hrun.2
    refine ⟨⟨hcap ▸ hwf.sizeLe, hwf.sizeCache, hwf.sizeList⟩, ?_⟩
    intro k v hsize habs
    have h := FrontLru.front_insert_at_capacity (v := v) hwf
      (hsize.trans hcap.symm) habs
    rw [hcap] at h
    exact h

/-- C1 witness: a capacity-1 cache filled by inserting key 0 satisfies
the size invariants in both variants, and inserting the absent key 1
into the full cache keeps size 1 and replaces key 0 by key 1 in the
recency list. -/
theorem claim1_witness :
    (0:Nat) < 1 ∧
    (StdLru.run (StdLru.init Nat Nat 1) [Op.ins 0 5]).msize ≤ 1 ∧
    ((StdLru.run (StdLru.init Nat Nat 1) [Op.ins 0 5]).insert 1 6).1.msize
      = 1 ∧
    ((StdLru.run (StdLru.init Nat Nat 1) [Op.ins 0 5]).insert 1 6).1.lruList
      = [] ++ [1] ∧
    (FrontLru.run (FrontLru.init Nat Nat 1) [Op.ins 0 5]).msize ≤ 1 ∧
    ((FrontLru.run (FrontLru.init Nat Nat 1) [Op.ins 0 5]).insert 1 6).1.lruList
      = [1] :=
  ⟨by decide,
   ((claim1_capacity_invariant 1 [Op.ins 0 5] (by decide)).1
      (StdLru.run (StdLru.init Nat Nat 1) [Op.ins 0 5]) rfl).1.1,
   (((claim1_capacity_invariant 1 [Op.ins 0 5] (by decide)).1
      (StdLru.run (StdLru.init Nat Nat 1) [Op.ins 0 5]) rfl).2 1 6
      (by decide) (by decide)).2.1,
   ((((claim1_capacity_invariant 1 [Op.ins 0 5] (by decide)).1
      (StdLru.run (StdLru.init Nat Nat 1) [Op.ins 0 5]) rfl).2 1 6
      (by decide) (by decide)).2.2 0 [] (by decide)).2.2,
   ((claim1_capacity_invariant 1 [Op.ins 0 5] (by decide)).2
      (FrontLru.run (FrontLru.init Nat Nat 1) [Op.ins 0 5]) rfl).1.1,
   ((((claim1_capacity_invariant 1 [Op.ins 0 5] (by decide)).2
      (FrontLru.run (FrontLru.init Nat Nat 1) [Op.ins 0 5]) rfl).2 1 6
      (by decide) (by decide)).2.2 [] 0 (by decide)).2.2⟩

theorem run_fillSeq (c m : Nat) (hm : m ≤ c) :
    StdLru.run (StdLru.init Nat Nat c) (fillSeq m)
      = { capacity := c, msize := m,
          cache := ((List.range m).map (fun i => (i, i))).reverse,
          lruList := List.range m } := by
  induction m with
  | zero => rfl
  | succ n ih =>
    have hn : n ≤ c := Nat.le_of_succ_le hm
    have hrun : StdLru.run (StdLru.init Nat Nat c) (fillSeq (n + 1))
        = StdLru.step (StdLru.run (StdLru.init Nat Nat c) (fillSeq n))
            (Op.ins n n) := by
      unfold fillSeq
      rw [List.range_succ, List.map_append]
      unfold StdLru.run
      rw [List.foldl_append]
      rfl
    rw [hrun, ih hn]
    show (StdLru.insert
        { capacity := c, msize := n,
          cache := ((List.range n).map (fun i => (i, i))).reverse,
          lruList := List.range n } n n).1 = _
    have habs : mapFind? n
        ((((List.range n).map (fun i => (i, i))).reverse) :
          List (Nat × Nat)) = none := by
      rw [mapFind?_eq_none, List.map_reverse, List.mem_reverse, List.map_map]
      simp
    unfold StdLru.insert
    rw [habs]
    dsimp only
    rw [StdLru.insertToCache_notFull ((by omega : ¬ (c ≤ n)))]
    simp [List.range_succ]

/-- C2: for every capacity c ≥ 2, after filling the head-eviction
cache with keys 0..c-1, touching key 0 with contains, and inserting
the previously-absent key c, key 0 is still present, key 1 — the
second-oldest — is the one evicted, every other old key and the new
key are present, and size stays c.  The concrete capacity-2 scenario
emplace(0), emplace(1), emplace(2) yields contains(0) = false,
contains(1) = true, contains(2) = true and size 2. -/
theorem claim2_recency (c : Nat) (hc : 2 ≤ c) :
    (∀ s0 s1 s2 : StdLru Nat Nat,
      s0 = StdLru.run (StdLru.init Nat Nat c) (fillSeq c) →
      s1 = (s0.contains 0).1 → s2 = (s1.insert c c).1 →
      (s2.contains 0).2 = true ∧ (s2.contains 1).2 = false ∧
      (∀ j, 2 ≤ j → j < c → (s2.contains j).2 = true) ∧
      (s2.contains c).2 = true ∧ s2.msize = c) ∧
    (((((((StdLru.init Nat Nat 2).emplace 0 0).1.emplace 1 1).1.emplace
        2 2).1.contains 0).2 = false) ∧
     ((((((StdLru.init Nat Nat 2).emplace 0 0).1.emplace 1 1).1.emplace
        2 2).1.contains 1).2 = true) ∧
     ((((((StdLru.init Nat Nat 2).emplace 0 0).1.emplace 1 1).1.emplace
        2 2).1.contains 2).2 = true) ∧
     (((((StdLru.init Nat Nat 2).emplace 0 0).1.emplace 1 1).1.emplace
        2 2).1.msize = 2)) := by
  constructor
  · intro s0 s1 s2 h0 h1 h2
    obtain ⟨d, rfl⟩ : ∃ d, c = d + 2 := ⟨c - 2, by omega⟩
    have hrange : List.range (d + 2)
        = 0 :: 1 :: (List.range d).map (fun i => i + 2) := by
      rw [List.range_succ_eq_map, List.range_succ_eq_map, List.map_cons,
          List.map_map]
      have hcomp : (Nat.succ ∘ Nat.succ) = (fun i : Nat => i + 2) :=
        funext (fun i => rfl)
      rw [hcomp]
    have h0' : s0 =
        { capacity := d + 2, msize := d + 2,
          cache := ((List.range (d + 2)).map (fun i => (i, i))).reverse,
          lruList := List.range (d + 2) } := by
      rw [h0, run_fillSeq (d + 2) (d + 2) (Nat.le_refl _)]
    have hkeys0 : s0.cache.map Prod.fst = (List.range (d + 2)).reverse := by
      rw [h0']
      dsimp only
      rw [List.map_reverse, List.map_map]
      have hid : (Prod.fst ∘ fun i : Nat => (i, i)) = id :=
        funext (fun i => rfl)
      rw [hid, List.map_id]
    have hperm0 : s0.cache.map Prod.fst
        ~ 0 :: 1 :: (List.range d).map (fun i => i + 2) := by
      rw [hkeys0, ← hrange]
      exact List.reverse_perm _
    have h0mem : 0 ∈ s0.cache.map Prod.fst :=
      hperm0.mem_iff.mpr (by simp)
    obtain ⟨w, hw⟩ : ∃ w, mapFind? 0 s0.cache = some w := by
      have hsome := mapFind?_isSome.mpr h0mem
      cases hmf : mapFind? 0 s0.cache
      · rw [hmf] at hsome
        simp at hsome
      · exact ⟨_, rfl⟩
    have h1' : s1 = { s0 with lruList := StdLru.moveToTop s0.lruList 0 } := by
      rw [h1]
      unfold StdLru.contains
      rw [hw]
    have hlist1 : s1.lruList
        = 1 :: ((List.range d).map (fun i => i + 2) ++ [0]) := by
      rw [h1', h0']
      dsimp only
      rw [hrange]
      show (0 :: 1 :: (List.range d).map (fun i => i + 2)).erase 0 ++ [0] = _
      rw [List.erase_cons_head]
      rfl
    have hcache1 : s1.cache = s0.cache := by rw [h1']
    have hnotmem : (d + 2) ∉ s1.cache.map Prod.fst := by
      rw [hcache1, hkeys0, List.mem_reverse]
      intro hmem
      exact absurd (List.mem_range.mp hmem) (by omega)
    have hfind1 : mapFind? (d + 2) s1.cache = none :=
      mapFind?_eq_none.mpr hnotmem
    have hfull1 : s1.capacity ≤ s1.msize := by
      rw [h1', h0']
    have h2' : s2 =
        { s1 with
          cache := (d + 2, d + 2) :: mapEraseKey 1 s1.cache,
          lruList := ((List.range d).map (fun i => i + 2) ++ [0])
            ++ [d + 2] } := by
      rw [h2]
      unfold StdLru.insert
      rw [hfind1]
      dsimp only
      rw [StdLru.insertToCache_full hfull1 hlist1]
    have herase : ((0 : Nat) :: 1 :: (List.range d).map
        (fun i => i + 2)).erase 1
        = 0 :: (List.range d).map (fun i => i + 2) := by
      rw [List.erase_cons_tail (by simp), List.erase_cons_head]
    have hkeys2 : s2.cache.map Prod.fst
        ~ (d + 2) :: 0 :: (List.range d).map (fun i => i + 2) := by
      rw [h2']
      dsimp only
      rw [List.map_cons, map_fst_mapEraseKey, hcache1]
      have h' := hperm0.erase 1
      rw [herase] at h'
      exact h'.cons _
    have hcsnd : ∀ j : Nat, (s2.contains j).2
        = (mapFind? j s2.cache).isSome := fun j => StdLru.contains_snd s2 j
    have hmemtrue : ∀ j : Nat, j ∈ s2.cache.map Prod.fst →
        (s2.contains j).2 = true := by
      intro j hj
      rw [hcsnd j]
      exact mapFind?_isSome.mpr hj
    refine ⟨?_, ?_, ?_, ?_, ?_⟩
    · exact hmemtrue 0 (hkeys2.mem_iff.mpr (by simp))
    · have hmem1 : (1 : Nat) ∉ s2.cache.map Prod.fst := by
        intro hm
        have h' := hkeys2.mem_iff.mp hm
        rcases List.mem_cons.mp h' with h'' | h''
        · omega
        rcases List.mem_cons.mp h'' with h3 | h3
        · omega
        rcases List.mem_map.mp h3 with ⟨i, _, hi⟩
        omega
      rw [hcsnd 1, mapFind?_eq_none.mpr hmem1]
      rfl
    · intro j hj2 hjc
      refine hmemtrue j (hkeys2.mem_iff.mpr ?_)
      right
      right
      exact List.mem_map.mpr ⟨j - 2, List.mem_range.mpr (by omega), by omega⟩
    · exact hmemtrue (d + 2) (hkeys2.mem_iff.mpr (by simp))
    · rw [h2', h1', h0']
  · decide

/-- C2 witness: the theorem applied at capacity 2 with the canonical
fill-touch-insert trace: key 0 survives, key 1 is evicted, key 2 is
present and size is still 2. -/
theorem claim2_witness :
    (2:Nat) ≤ 2 ∧
    (((((StdLru.run (StdLru.init Nat Nat 2) (fillSeq 2)).contains
        0).1.insert 2 2).1.contains 0).2 = true) ∧
    (((((StdLru.run (StdLru.init Nat Nat 2) (fillSeq 2)).contains
        0).1.insert 2 2).1.contains 1).2 = false) ∧
    ((((StdLru.run (StdLru.init Nat Nat 2) (fillSeq 2)).contains
        0).1.insert 2 2).1.msize = 2) :=
  ⟨by decide,
   ((claim2_recency 2 (by decide)).1
      (StdLru.run (StdLru.init Nat Nat 2) (fillSeq 2))
      ((StdLru.run (StdLru.init Nat Nat 2) (fillSeq 2)).contains 0).1
      ((((StdLru.run (StdLru.init Nat Nat 2) (fillSeq 2)).contains
        0).1.insert 2 2).1) rfl rfl rfl).1,
   ((claim2_recency 2 (by decide)).1
      (StdLru.run (StdLru.init Nat Nat 2) (fillSeq 2))
      ((StdLru.run (StdLru.init Nat Nat 2) (fillSeq 2)).contains 0).1
      ((((StdLru.run (StdLru.init Nat Nat 2) (fillSeq 2)).contains
        0).1.insert 2 2).1) rfl rfl rfl).2.1,
   ((claim2_recency 2 (by decide)).1
      (StdLru.run (StdLru.init Nat Nat 2) (fillSeq 2))
      ((StdLru.run (StdLru.init Nat Nat 2) (fillSeq 2)).contains 0).1
      ((((StdLru.run (StdLru.init Nat Nat 2) (fillSeq 2)).contains
        0).1.insert 2 2).1) rfl rfl rfl).2.2.2.2⟩

end CacheSpec
